import Mathlib

/-!
# Verification of the Task3 price-consumer ingestion pipeline

A shallow embedding, in Lean 4, of the ingestion pipeline under
`src/Task3-Price-consumer/` (`normalizer.py`, `validator.py`, `db.py`,
`consumer.py`), together with proofs settling the frozen specification
claims about it.

Modelling conventions, used throughout:

* Python's dynamically typed JSON-ish values are modelled by `JVal`.
  Python numbers (the ints and floats produced by `json.loads` and by
  `float(...)`) are modelled by `PyFloat`: an exact decimal significand
  `m / 10 ^ e`, plus the special values `inf`, `neginf` and `nan`.  IEEE-754
  rounding of decimal literals is not modelled; every claim below depends
  only on the sign / specialness of a number, which rounding preserves.
* Python dicts are association lists `List (String × JVal)`; the documents
  in this pipeline come from `json.loads`, whose objects have no duplicate
  keys, so first-match lookup is the dict lookup.
* Fallible Python code is embedded in `Except PyErr _`; an uncaught Python
  exception is the `.error` case.
* Machine-dependent effects are explicit parameters: the wall clock of
  `datetime.utcnow`, the process local timezone used by `astimezone` on a
  naive datetime, the database outcome of `upsert_rows`, and the SQS
  outcome of `send_message` are all inputs of the embedded functions.
-/

/-! ## Python float values (exact decimal model)

`PyFloat.finite m e` stands for the real number `m / 10 ^ e`. -/

inductive PyFloat : Type where
  | finite (m : Int) (e : Nat)
  | inf
  | neginf
  | nan
deriving DecidableEq, Repr

namespace PyFloat

/-- The Python comparison `x < 0` (note `nan < 0` is `False`). -/
def isNeg : PyFloat → Bool
  | finite m _ => m < 0
  | inf => false
  | neginf => true
  | nan => false

/-- The Python comparison `x >= 0` (note `nan >= 0` is `False`). -/
def isGe0 : PyFloat → Bool
  | finite m _ => 0 ≤ m
  | inf => true
  | neginf => false
  | nan => false

end PyFloat

/-! ## JSON-ish Python values -/

inductive JVal : Type where
  | jnull
  | jbool (b : Bool)
  | jnum (f : PyFloat)
  | jstr (s : String)
  | jarr (elems : List JVal)
  | jobj (fields : List (String × JVal))

namespace JVal

/-- Induction over `JVal` that hands the inductive hypothesis to every
element of a nested list, proved by well-founded recursion on `sizeOf`. -/
def inductionOn {P : JVal → Prop}
    (hnull : P .jnull)
    (hbool : ∀ b, P (.jbool b))
    (hnum : ∀ f, P (.jnum f))
    (hstr : ∀ s, P (.jstr s))
    (harr : ∀ xs, (∀ x ∈ xs, P x) → P (.jarr xs))
    (hobj : ∀ kvs, (∀ kv ∈ kvs, P (Prod.snd kv)) → P (.jobj kvs)) :
    ∀ v, P v
  | .jnull => hnull
  | .jbool b => hbool b
  | .jnum f => hnum f
  | .jstr s => hstr s
  | .jarr xs => harr xs (fun x hx =>
      have : sizeOf x < 1 + sizeOf xs :=
        Nat.lt_of_lt_of_le (List.sizeOf_lt_of_mem hx) (Nat.le_add_left _ _)
      inductionOn hnull hbool hnum hstr harr hobj x)
  | .jobj kvs => hobj kvs (fun kv hkv =>
      have h1 : sizeOf kv.2 < sizeOf kv := by
        obtain ⟨a, b⟩ := kv; simp
      have : sizeOf kv.2 < 1 + sizeOf kvs :=
        Nat.lt_of_lt_of_le (Nat.lt_of_lt_of_le h1
          (Nat.le_of_lt (List.sizeOf_lt_of_mem hkv))) (Nat.le_add_left _ _)
      inductionOn hnull hbool hnum hstr harr hobj kv.2)
termination_by v => sizeOf v

mutual

def beq : JVal → JVal → Bool
  | .jnull, .jnull => true
  | .jbool a, .jbool b => a == b
  | .jnum a, .jnum b => a == b
  | .jstr a, .jstr b => a == b
  | .jarr a, .jarr b => beqList a b
  | .jobj a, .jobj b => beqFields a b
  | _, _ => false

def beqList : List JVal → List JVal → Bool
  | [], [] => true
  | x :: xs, y :: ys => beq x y && beqList xs ys
  | _, _ => false

def beqFields : List (String × JVal) → List (String × JVal) → Bool
  | [], [] => true
  | (k, v) :: xs, (l, w) :: ys => k == l && beq v w && beqFields xs ys
  | _, _ => false

end

theorem beq_refl : ∀ v : JVal, beq v v = true := by
  intro v
  induction v using inductionOn with
  | hnull => rfl
  | hbool b => simp [beq]
  | hnum f => simp [beq]
  | hstr s => simp [beq]
  | harr xs ih =>
    show beqList xs xs = true
    induction xs with
    | nil => rfl
    | cons x xs ihr =>
      simp only [beqList, Bool.and_eq_true]
      exact ⟨ih x (by simp), ihr (fun y hy => ih y (by simp [hy]))⟩
  | hobj kvs ih =>
    show beqFields kvs kvs = true
    induction kvs with
    | nil => rfl
    | cons kv kvs ihr =>
      obtain ⟨k, v⟩ := kv
      simp only [beqFields, Bool.and_eq_true]
      exact ⟨⟨by simp, ih (k, v) (by simp)⟩,
        ihr (fun y hy => ih y (by simp [hy]))⟩

theorem eq_of_beq : ∀ a b : JVal, beq a b = true → a = b := by
  intro a
  induction a using inductionOn with
  | hnull => intro b h; cases b <;> simp_all [beq]
  | hbool x => intro b h; cases b <;> simp_all [beq]
  | hnum x => intro b h; cases b <;> simp_all [beq]
  | hstr x => intro b h; cases b <;> simp_all [beq]
  | harr xs ih =>
    intro b h
    cases b with
    | jarr ys =>
      congr 1
      induction xs generalizing ys with
      | nil => cases ys with
        | nil => rfl
        | cons y ys => exact absurd h (by simp [beq, beqList])
      | cons x xs ihr =>
        cases ys with
        | nil => exact absurd h (by simp [beq, beqList])
        | cons y ys =>
          have h' : beq x y = true ∧ beqList xs ys = true := by
            have := h; simp only [beq, beqList, Bool.and_eq_true] at this
            exact this
          have hx : x = y := ih x (by simp) y h'.1
          have hxs : xs = ys := by
            apply ihr (fun z hz => ih z (by simp [hz]))
            simpa [beq] using h'.2
          rw [hx, hxs]
    | jnull => exact absurd h (by simp [beq])
    | jbool _ => exact absurd h (by simp [beq])
    | jnum _ => exact absurd h (by simp [beq])
    | jstr _ => exact absurd h (by simp [beq])
    | jobj _ => exact absurd h (by simp [beq])
  | hobj kvs ih =>
    intro b h
    cases b with
    | jobj lws =>
      congr 1
      induction kvs generalizing lws with
      | nil => cases lws with
        | nil => rfl
        | cons y ys => exact absurd h (by simp [beq, beqFields])
      | cons kv kvs ihr =>
        obtain ⟨k, v⟩ := kv
        cases lws with
        | nil => exact absurd h (by simp [beq, beqFields])
        | cons lw lws =>
          obtain ⟨l, w⟩ := lw
          have h' : (k == l && beq v w) = true ∧ beqFields kvs lws = true := by
            have := h; simp only [beq, beqFields, Bool.and_eq_true] at this
            exact ⟨by simp [this.1], this.2⟩
          have hk : k = l := by
            have := h'.1; simp only [Bool.and_eq_true, beq_iff_eq] at this
            exact this.1
          have hv : v = w := by
            have := h'.1; simp only [Bool.and_eq_true] at this
            exact ih (k, v) (by simp) w this.2
          have htl : kvs = lws := by
            apply ihr (fun z hz => ih z (by simp [hz]))
            simpa [beq] using h'.2
          rw [hk, hv, htl]
    | jnull => exact absurd h (by simp [beq])
    | jbool _ => exact absurd h (by simp [beq])
    | jnum _ => exact absurd h (by simp [beq])
    | jstr _ => exact absurd h (by simp [beq])
    | jarr _ => exact absurd h (by simp [beq])

instance : DecidableEq JVal := fun a b =>
  decidable_of_iff (beq a b = true)
    ⟨eq_of_beq a b, fun h => h ▸ beq_refl a⟩

end JVal

/-! ## Python string and dict semantics -/

/-- ASCII whitespace stripped by Python's `str.strip()` (the further Unicode
space characters Python also strips play no role in any claim). -/
def pyIsSpace (c : Char) : Bool :=
  c = ' ' || c = '\t' || c = '\n' || c = '\r' || c = '\x0b' || c = '\x0c'

/-- Python `str.strip()`. -/
def pyStrip (s : String) : String :=
  String.mk ((s.data.dropWhile pyIsSpace).reverse.dropWhile pyIsSpace |>.reverse)

/-- Python `str.lower()` (ASCII case folding; no claim involves non-ASCII
case mapping). -/
def pyLower (s : String) : String := String.mk (s.data.map Char.toLower)

/-- Python `str.endswith` (suffix test on characters). -/
def pyEndsWith (s t : String) : Bool := t.data.reverse.isPrefixOf s.data.reverse

/-- Decimal digit character. -/
def digitChar (d : Nat) : Char := Char.ofNat (48 + d)

/-- Decimal digits, most significant first; structural on `fuel` (which any
`fuel > n` saturates) so that concrete instances reduce in the kernel. -/
def natDigitsAux : Nat → Nat → List Char
  | 0, _ => []
  | fuel + 1, n =>
    if n < 10 then [digitChar n]
    else natDigitsAux fuel (n / 10) ++ [digitChar (n % 10)]

/-- Decimal digits of `n`, most significant first. -/
def natDigits (n : Nat) : List Char := natDigitsAux (n + 1) n

/-- Unsigned decimal rendering of `n / 10 ^ e`: integer digits, and — when
`e > 0` — a point followed by exactly `e` fraction digits. -/
def renderCore (n e : Nat) : List Char :=
  let ds := natDigits n
  if e = 0 then ds
  else
    let full := List.replicate (e + 1 - ds.length) '0' ++ ds
    let k := full.length - e
    full.take k ++ '.' :: full.drop k

/-- Decimal rendering of the exact value `m / 10 ^ e`, with sign. -/
def renderFinite (m : Int) (e : Nat) : List Char :=
  (if m < 0 then ['-'] else []) ++ renderCore m.natAbs e

mutual

/-- Python `repr(v)`, approximately: containers and scalars as Python prints
them.  String escaping inside `repr` is not modelled (strings are wrapped in
bare quotes); no claim inspects the `str()`/`repr()` of a container or of a
float, they only require it to be some total string. -/
def pyRepr : JVal → String
  | .jnull => "None"
  | .jbool true => "True"
  | .jbool false => "False"
  | .jnum (.finite m e) => String.mk (renderFinite m e)
  | .jnum .inf => "inf"
  | .jnum .neginf => "-inf"
  | .jnum .nan => "nan"
  | .jstr s => "\x27" ++ s ++ "\x27"
  | .jarr xs => "[" ++ String.intercalate ", " (pyReprList xs) ++ "]"
  | .jobj kvs => "\x7b" ++ String.intercalate ", " (pyReprFields kvs) ++ "\x7d"

def pyReprList : List JVal → List String
  | [] => []
  | x :: xs => pyRepr x :: pyReprList xs

def pyReprFields : List (String × JVal) → List String
  | [] => []
  | (k, v) :: kvs => ("\x27" ++ k ++ "\x27: " ++ pyRepr v) :: pyReprFields kvs

end

/-- Python `str(v)` (`str` of a `str` is itself, otherwise `repr`-like). -/
def pyStr : JVal → String
  | .jstr s => s
  | v => pyRepr v

/-- Uncaught Python exceptions, by kind, carrying `str(e)`. -/
inductive PyErr : Type where
  | valueError (msg : String)
  | typeError (msg : String)
  | attributeError (msg : String)
  | keyError (msg : String)
  | overflowError (msg : String)
  | jsonDecodeError (msg : String)
  | storageError (msg : String)
deriving DecidableEq, Repr

/-- Python `str(e)` of an exception. -/
def PyErr.toMsg : PyErr → String
  | .valueError m => m
  | .typeError m => m
  | .attributeError m => m
  | .keyError m => m
  | .overflowError m => m
  | .jsonDecodeError m => m
  | .storageError m => m

/-- A Python dict (association list with the unique-keys convention of
`json.loads`). -/
abbrev JObj : Type := List (String × JVal)

/-- Python `d.get(k)` — default `None`. -/
def pyGet (fields : JObj) (k : String) : JVal := (fields.lookup k).getD .jnull

/-- Python `d.get(k, dflt)`. -/
def pyGetD (fields : JObj) (k : String) (dflt : JVal) : JVal :=
  (fields.lookup k).getD dflt

/-- Python `d[k]` — `KeyError` when absent. -/
def pyIndex (fields : JObj) (k : String) : Except PyErr JVal :=
  match fields.lookup k with
  | some v => .ok v
  | none => .error (.keyError k)

/-- Python `for x in v`: lists yield their elements, strings their
one-character substrings, dicts their keys; other values raise `TypeError`. -/
def pyIter : JVal → Except PyErr (List JVal)
  | .jarr xs => .ok xs
  | .jstr s => .ok (s.data.map (fun c => .jstr (String.singleton c)))
  | .jobj kvs => .ok (kvs.map (fun kv => .jstr kv.1))
  | _ => .error (.typeError "object is not iterable")

/-- Python `s.replace(pat, rep)` on character lists: every non-overlapping
occurrence, scanning left to right; structural on `fuel` (any
`fuel > s.length` saturates).  All call sites in the modelled code use a
non-empty `pat`; for `pat = []` this is the identity. -/
def replaceAllAux : Nat → List Char → List Char → List Char → List Char
  | 0, s, _, _ => s
  | fuel + 1, s, pat, rep =>
    match s with
    | [] => []
    | c :: cs =>
      if pat ≠ [] ∧ pat.isPrefixOf (c :: cs) then
        rep ++ replaceAllAux fuel ((c :: cs).drop pat.length) pat rep
      else
        c :: replaceAllAux fuel cs pat rep

def replaceAll (s pat rep : List Char) : List Char :=
  replaceAllAux (s.length + 1) s pat rep

/-- Python `s.replace(pat, rep)`. -/
def pyReplace (s pat rep : String) : String :=
  String.mk (replaceAll s.data pat.data rep.data)

/-! ## Python `float(...)` -/

/-- Numeric value of a decimal digit list, most significant first. -/
def digitsToNat (ds : List Char) : Nat :=
  ds.foldl (fun a c => a * 10 + (c.toNat - 48)) 0

/-- Python `float(s)` on a string: optional sign, then `inf`/`infinity`/`nan`
(case-insensitive) or `digits [. digits] [eE [sign] digits]` with at least one
mantissa digit.  (Digit-group underscores are not modelled; no claim uses
them.)  Overflow of the binary double is not modelled: the value is kept as an
exact decimal, which preserves the sign and specialness that the claims
depend on. -/
def pyFloatOfStr (s : String) : Option PyFloat :=
  let cs := (pyStrip s).data
  let (neg, cs) : Bool × List Char :=
    match cs with
    | '-' :: rest => (true, rest)
    | '+' :: rest => (false, rest)
    | rest => (false, rest)
  let lower := cs.map Char.toLower
  if lower = "inf".data || lower = "infinity".data then
    some (if neg then .neginf else .inf)
  else if lower = "nan".data then
    some .nan
  else
    let intDs := cs.takeWhile Char.isDigit
    let rest1 := cs.dropWhile Char.isDigit
    let (fracDs, rest2) : List Char × List Char :=
      match rest1 with
      | '.' :: r => (r.takeWhile Char.isDigit, r.dropWhile Char.isDigit)
      | r => ([], r)
    if intDs = [] ∧ fracDs = [] then none
    else
      let (expk, rest3) : Option Int × List Char :=
        match rest2 with
        | 'e' :: r | 'E' :: r =>
          let (eneg, r') : Bool × List Char :=
            match r with
            | '-' :: r2 => (true, r2)
            | '+' :: r2 => (false, r2)
            | r2 => (false, r2)
          let eds := r'.takeWhile Char.isDigit
          if eds = [] then (none, r)
          else ((some (if eneg then -(digitsToNat eds : Int) else (digitsToNat eds : Int))),
                r'.dropWhile Char.isDigit)
        | r => (some 0, r)
      match expk with
      | none => none
      | some k =>
        if rest3 ≠ [] then none
        else
          let m0 : Int := digitsToNat (intDs ++ fracDs)
          let m1 : Int := if neg then -m0 else m0
          let e0 : Nat := fracDs.length
          if (e0 : Int) ≤ k then
            some (.finite (m1 * 10 ^ (k - e0).toNat) 0)
          else
            some (.finite m1 ((e0 : Int) - k).toNat)

/-- Python `float(v)` on an arbitrary value: numbers and bools convert,
strings parse, everything else raises `TypeError`. -/
def pyFloat : JVal → Option PyFloat
  | .jnum f => some f
  | .jbool b => some (.finite (if b then 1 else 0) 0)
  | .jstr s => pyFloatOfStr s
  | _ => none

/-- `float(v)` as the fallible call itself (`ValueError` on a bad string,
`TypeError` on a non-convertible type). -/
def pyFloatExc (v : JVal) : Except PyErr PyFloat :=
  match pyFloat v with
  | some f => .ok f
  | none =>
    match v with
    | .jstr s =>
      .error (.valueError ("could not convert string to float: " ++ s))
    | _ => .error (.typeError "float() argument must be a string or a real number")

/-! ## `validator.py` -/

/-- `ALLOWED_TYPES` of `validator.py` (a set; rendered sorted in the error
text, and `sorted({"pricesFull", "promoFull"}) = ["pricesFull", "promoFull"]`). -/
def ALLOWED_TYPES : List String := ["pricesFull", "promoFull"]

/-- The test `not isinstance(v, str) or len(v.strip()) < 1` used for
`provider`, `branch`, `item.product` and `item.unit`. -/
def strTooShort (v : JVal) : Bool :=
  match v with
  | .jstr s => (pyStrip s).length < 1
  | _ => true

/-- The test `doc.get("type") not in ALLOWED_TYPES` (a non-string value is
equal to neither allowed string). -/
def typeNotAllowed (v : JVal) : Bool :=
  match v with
  | .jstr s => !(s == "pricesFull" || s == "promoFull")
  | _ => true

/-- The test `not isinstance(ts, str) or not ts.endswith("Z")`. -/
def tsBad (v : JVal) : Bool :=
  match v with
  | .jstr s => !pyEndsWith s "Z"
  | _ => true

/-- The violation messages collected for `items[i]` (`validator.py` lines
36–47): a non-dict item short-circuits with a single message (`continue`),
otherwise the product, unit and price checks each may contribute one. -/
def itemMsgs (i : Nat) (it : JVal) : List String :=
  match it with
  | .jobj f =>
    (if strTooShort (pyGet f "product") then
      ["item[" ++ toString i ++ "].product is too short"] else [])
    ++ (if strTooShort (pyGet f "unit") then
      ["item[" ++ toString i ++ "].unit is too short"] else [])
    ++ (match pyFloat (pyGet f "price") with
        | some p =>
          if p.isNeg then ["item[" ++ toString i ++ "].price must be >= 0"] else []
        | none => ["item[" ++ toString i ++ "].price must be a number"])
  | _ => ["item[" ++ toString i ++ "] must be an object"]

/-- The violation messages for the `items` field: `not isinstance(items, list)
or len(items) < 1` yields the items message, otherwise the per-item loop
runs. -/
def itemsMsgs (items : JVal) : List String :=
  match items with
  | .jarr xs =>
    if xs.length < 1 then ["\x27items\x27 must be a non-empty array"]
    else (xs.enum.map (fun p => itemMsgs p.1 p.2)).flatten
  | _ => ["\x27items\x27 must be a non-empty array"]

/-- All violation messages of `validate_doc`, in collection order.  The
function's `Dict[str, Any]` domain makes the `isinstance(doc, dict)` check of
line 11 vacuous, so it contributes no message here. -/
def validationMsgs (doc : JObj) : List String :=
  (if strTooShort (pyGet doc "provider") then ["\x27provider\x27 is too short"] else [])
  ++ (if strTooShort (pyGet doc "branch") then ["\x27branch\x27 is too short"] else [])
  ++ (if typeNotAllowed (pyGet doc "type") then
        ["\x27type\x27 must be one of [\x27pricesFull\x27, \x27promoFull\x27]"] else [])
  ++ (if tsBad (pyGet doc "timestamp") then
        ["\x27timestamp\x27 must be ISO8601 UTC with Z suffix"] else [])
  ++ itemsMsgs (pyGet doc "items")

/-- `_err`: raise `ValueError` joining the messages, if any. -/
def validatorErr (msgs : List String) : Except PyErr Unit :=
  if msgs = [] then .ok () else .error (.valueError (String.intercalate "; " msgs))

/-- `validate_doc` (`validator.py` lines 9–49). -/
def validate_doc (doc : JObj) : Except PyErr Unit := validatorErr (validationMsgs doc)

/-! ## `doc_to_rows` (`validator.py` lines 51–66) -/

/-- A row produced by the Flattener: the dict with the nine column keys. -/
structure Row : Type where
  provider : JVal
  branch : JVal
  doc_type : JVal
  ts : JVal
  product : JVal
  unit : JVal
  price : JVal
  src_key : JVal
  etag : JVal
deriving DecidableEq

/-- Python `v[k]` with a string key: dicts index, everything else raises
`TypeError`. -/
def pySubscript (v : JVal) (k : String) : Except PyErr JVal :=
  match v with
  | .jobj f => pyIndex f k
  | _ => .error (.typeError "value is not subscriptable by a string")

/-- One iteration of the `doc_to_rows` loop body: the dict literal's values
evaluated in source order. -/
def row_of_item (doc : JObj) (it : JVal) : Except PyErr Row := do
  let provider ← pyIndex doc "provider"
  let branch ← pyIndex doc "branch"
  let doc_type ← pyIndex doc "type"
  let ts ← pyIndex doc "timestamp"
  let product ← pySubscript it "product"
  let unitV ← pySubscript it "unit"
  let priceRaw ← pySubscript it "price"
  let price ← pyFloatExc priceRaw
  pure { provider := provider, branch := branch, doc_type := doc_type, ts := ts,
         product := product, unit := unitV, price := .jnum price,
         src_key := pyGet doc "src_key", etag := pyGet doc "etag" }

/-- `doc_to_rows`: flatten a doc into one row per item, in order. -/
def doc_to_rows (doc : JObj) : Except PyErr (List Row) := do
  let itemsV ← pyIndex doc "items"
  let its ← pyIter itemsV
  its.mapM (row_of_item doc)

/-! ## `datetime` model

Just enough of CPython's `datetime` for `normalizer.py`: `fromisoformat` in
its pre-3.11 form (which is what the `replace("Z", "+00:00")` in the source
caters to), `astimezone(timezone.utc)`, and `isoformat`.  Calendar arithmetic
follows CPython's `_ymd2ord` / `_ord2ymd`.  Timezone offsets are modelled in
whole minutes (`±HH:MM`); offsets carrying seconds are not modelled. -/

structure PyDateTime : Type where
  year : Nat
  month : Nat
  day : Nat
  hour : Nat
  minute : Nat
  second : Nat
  micro : Nat
  tzOffsetMin : Option Int
deriving DecidableEq, Repr

def isLeap (y : Nat) : Bool := (y % 4 == 0 && y % 100 != 0) || y % 400 == 0

def daysInMonth (y : Nat) (m : Nat) : Nat :=
  if m = 2 then (if isLeap y then 29 else 28)
  else if m = 4 || m = 6 || m = 9 || m = 11 then 30
  else 31

/-- CPython `_days_before_month(year, month)` (month `1..12`). -/
def daysBeforeMonth (y : Nat) (m : Nat) : Nat :=
  (List.range (m - 1)).foldl (fun a i => a + daysInMonth y (i + 1)) 0

/-- CPython `_days_before_year(year)`. -/
def daysBeforeYear (y : Nat) : Nat :=
  (y - 1) * 365 + (y - 1) / 4 - (y - 1) / 100 + (y - 1) / 400

/-- CPython `_ymd2ord`: proleptic Gregorian ordinal, with `0001-01-01 = 1`. -/
def ymd2ord (y m d : Nat) : Nat := daysBeforeYear y + daysBeforeMonth y m + d

/-- The ordinal of 9999-12-31, the largest `datetime` can hold. -/
def maxOrdinal : Nat := ymd2ord 9999 12 31

/-- CPython `_ord2ymd`: inverse of `ymd2ord` on `1 ≤ n ≤ maxOrdinal`. -/
def ord2ymd (n : Nat) : Nat × Nat × Nat :=
  let n0 := n - 1
  let n400 := n0 / 146097
  let r400 := n0 % 146097
  let n100 := r400 / 36524
  let r100 := r400 % 36524
  let n4 := r100 / 1461
  let r4 := r100 % 1461
  let n1 := r4 / 365
  let r1 := r4 % 365
  let year := n400 * 400 + n100 * 100 + n4 * 4 + n1 + 1
  if n1 = 4 || n100 = 4 then
    (year - 1, 12, 31)
  else
    -- the month is the largest m ∈ 1..12 with daysBeforeMonth year m ≤ r1;
    -- daysBeforeMonth is monotone in m, so count the m that qualify
    let month := ((List.range 12).filter (fun i => daysBeforeMonth year (i + 1) ≤ r1)).length
    (year, month, r1 - daysBeforeMonth year month + 1)

/-- `dt.astimezone(timezone.utc)`: shift the wall-clock fields to UTC.  A
naive datetime (no offset) is interpreted in the process-local timezone,
passed in as a constant `localOffsetMin` (DST-dependent variation of the
local offset is not modelled; no claim depends on the local zone).  Returns
`none` where CPython raises for a result outside year `1..9999`. -/
def astimezoneUTC (localOffsetMin : Int) (dt : PyDateTime) : Option PyDateTime :=
  let off := dt.tzOffsetMin.getD localOffsetMin
  let tot : Int := (ymd2ord dt.year dt.month dt.day : Int) * 1440
      + dt.hour * 60 + dt.minute - off
  if h : 0 ≤ tot then
    let t := tot.toNat
    let newOrd := t / 1440
    let rem := t % 1440
    if 1 ≤ newOrd ∧ newOrd ≤ maxOrdinal then
      let (y, m, d) := ord2ymd newOrd
      some { year := y, month := m, day := d, hour := rem / 60, minute := rem % 60,
             second := dt.second, micro := dt.micro, tzOffsetMin := some 0 }
    else none
  else none

/-- Zero-padded fixed-width decimal rendering (CPython `%0*d` for `n ≥ 0`). -/
def padNum (w n : Nat) : List Char :=
  List.replicate (w - (natDigits n).length) '0' ++ natDigits n

/-- `dt.isoformat()` of an aware UTC datetime:
`YYYY-MM-DDTHH:MM:SS[.ffffff]+00:00` (microseconds omitted when zero). -/
def isoformatUTC (dt : PyDateTime) : String :=
  String.mk
    (padNum 4 dt.year ++ '-' :: padNum 2 dt.month ++ '-' :: padNum 2 dt.day
      ++ 'T' :: padNum 2 dt.hour ++ ':' :: padNum 2 dt.minute
      ++ ':' :: padNum 2 dt.second
      ++ (if dt.micro = 0 then [] else '.' :: padNum 6 dt.micro)
      ++ "+00:00".data)

/-- Two decimal digit characters as a number. -/
def digit2 (a b : Char) : Option Nat :=
  if a.isDigit && b.isDigit then some ((a.toNat - 48) * 10 + (b.toNat - 48)) else none

/-- Fractional-second digits (pre-3.11 `fromisoformat`: exactly 3 or 6),
scaled to microseconds. -/
def parseFrac (ds : List Char) : Option Nat :=
  if ds.all Char.isDigit then
    if ds.length = 3 then some (digitsToNat ds * 1000)
    else if ds.length = 6 then some (digitsToNat ds)
    else none
  else none

/-- The `[HH:MM[:SS[.fff[fff]]]][±HH:MM]` tail of an isoformat string (the
part after the date and the separator character). -/
def parseIsoTime (cs : List Char) : Option (Nat × Nat × Nat × Nat × Option Int) :=
  match cs with
  | h1 :: h2 :: ':' :: m1 :: m2 :: rest => do
    let hh ← digit2 h1 h2
    let mm ← digit2 m1 m2
    let (ss, micro, rest2) ←
      match rest with
      | ':' :: s1 :: s2 :: rest' => do
        let ss ← digit2 s1 s2
        match rest' with
        | '.' :: fs =>
          let ds := fs.takeWhile Char.isDigit
          let tail := fs.dropWhile Char.isDigit
          do
            let micro ← parseFrac ds
            pure (ss, micro, tail)
        | _ => pure (ss, 0, rest')
      | _ => pure (0, 0, rest)
    let off ←
      match rest2 with
      | [] => pure (none : Option Int)
      | sgn :: o1 :: o2 :: ':' :: o3 :: o4 :: [] => do
        let oh ← digit2 o1 o2
        let om ← digit2 o3 o4
        if (sgn = '+' || sgn = '-') && om ≤ 59 && (oh * 60 + om) < 1440 then
          pure (some (if sgn = '-' then -((oh * 60 + om : Nat) : Int) else ((oh * 60 + om : Nat) : Int)))
        else none
      | _ => none
    if hh ≤ 23 && mm ≤ 59 && ss ≤ 59 then
      pure (hh, mm, ss, micro, off)
    else none
  | _ => none

/-- `datetime.fromisoformat` (pre-3.11 grammar):
`YYYY-MM-DD[*HH:MM[:SS[.fff[fff]]][±HH:MM]]` with `*` any single separator
character, and real-calendar validation of the date. -/
def fromisoformat (s : String) : Option PyDateTime :=
  match s.data with
  | y1 :: y2 :: y3 :: y4 :: '-' :: m1 :: m2 :: '-' :: d1 :: d2 :: rest => do
    if !([y1, y2, y3, y4].all Char.isDigit) then none
    else
      let y := digitsToNat [y1, y2, y3, y4]
      let mo ← digit2 m1 m2
      let d ← digit2 d1 d2
      if 1 ≤ y && 1 ≤ mo && mo ≤ 12 && 1 ≤ d && d ≤ daysInMonth y mo then
        match rest with
        | [] => pure { year := y, month := mo, day := d, hour := 0, minute := 0,
                       second := 0, micro := 0, tzOffsetMin := none }
        | _sep :: timePart => do
          let (hh, mm, ss, micro, off) ← parseIsoTime timePart
          pure { year := y, month := mo, day := d, hour := hh, minute := mm,
                 second := ss, micro := micro, tzOffsetMin := off }
      else none
  | _ => none

/-- `_to_utc_z` (`normalizer.py` lines 8–14), with the process-local timezone
offset as an explicit parameter. -/
def _to_utc_z (localOffsetMin : Int) (ts : String) : Except PyErr String :=
  match (if pyEndsWith (pyStrip ts) "Z" then
      fromisoformat (pyReplace (pyStrip ts) "Z" "+00:00")
    else fromisoformat (pyStrip ts)) with
  | none => .error (.valueError ("Invalid isoformat string: " ++ pyStrip ts))
  | some dt =>
    match astimezoneUTC localOffsetMin dt with
    | none => .error (.overflowError "date value out of range")
    | some u => .ok (pyReplace (isoformatUTC u) "+00:00" "Z")

/-! ## `normalizer.py` -/

/-- The normalizer's environment-derived configuration, plus the
process-local timezone offset that `astimezone` applies to naive
datetimes.  The structure defaults are the `os.getenv` defaults of an
unconfigured environment. -/
structure NormCfg : Type where
  defaultUnitEnv : String := "unit"
  defaultBranchEnv : String := "default"
  localOffsetMin : Int := 0
deriving DecidableEq, Repr

/-- `DEFAULT_UNIT` (`normalizer.py` line 5). -/
def DEFAULT_UNIT (cfg : NormCfg) : String := cfg.defaultUnitEnv

/-- `DEFAULT_BRANCH` (`normalizer.py` line 6): the env value, stripped. -/
def DEFAULT_BRANCH (cfg : NormCfg) : String := pyStrip cfg.defaultBranchEnv

/-- `_norm_text` (`normalizer.py` lines 16–17). -/
def _norm_text (v : JVal) : String :=
  pyStrip (match v with
    | .jnull => ""
    | w => pyStr w)

/-- `_norm_price` (`normalizer.py` lines 19–23): `float(v)`, or `0.0` when
that raises. -/
def _norm_price (v : JVal) : PyFloat := (pyFloat v).getD (.finite 0 0)

/-- `_canon_type` (`normalizer.py` lines 25–27). -/
def _canon_type (t : String) : String :=
  let t := pyStrip t
  if t = "pricesFull" || t = "promoFull" then t else "pricesFull"

/-- `datetime.utcnow().replace(tzinfo=timezone.utc).isoformat()`: the wall
clock is an explicit parameter. -/
def utcnowIso (now : PyDateTime) : String := isoformatUTC now

/-- One iteration of the normalizer's item loop (`normalizer.py` lines
38–44); `it.get` raises `AttributeError` on a non-dict element. -/
def normItem (cfg : NormCfg) (it : JVal) : Except PyErr JVal :=
  match it with
  | .jobj f =>
    .ok (.jobj
      [("product", .jstr (_norm_text (pyGet f "product"))),
       ("unit", .jstr (let u := _norm_text (pyGet f "unit")
                       if u = "" then DEFAULT_UNIT cfg else u)),
       ("price", .jnum (_norm_price (pyGet f "price")))])
  | _ => .error (.attributeError "item has no attribute get")

/-- The normalizer's `raw_ts` local (`normalizer.py` line 33): the stripped
timestamp text, or the current UTC instant's isoformat when falsy. -/
def norm_raw_ts (now : PyDateTime) (fields : JObj) : String :=
  let t := _norm_text (pyGet fields "timestamp")
  if t = "" then utcnowIso now else t

/-- `normalize_message` (`normalizer.py` lines 29–53); returns the canonical
dict. -/
def normalize_message (cfg : NormCfg) (now : PyDateTime) (msg : JVal) :
    Except PyErr JObj :=
  match msg with
  | .jobj fields => do
    let provider := pyLower (_norm_text (pyGet fields "provider"))
    let branch :=
      let b := _norm_text (pyGet fields "branch")
      if b = "" then DEFAULT_BRANCH cfg else b
    let doc_type := _canon_type (_norm_text (pyGet fields "type"))
    let ts ← _to_utc_z cfg.localOffsetMin (norm_raw_ts now fields)
    let itemsIter ← pyIter (pyGetD fields "items" (.jarr []))
    let items ← itemsIter.mapM (normItem cfg)
    .ok [("provider", .jstr provider), ("branch", .jstr branch),
         ("type", .jstr doc_type), ("timestamp", .jstr ts),
         ("items", .jarr items),
         ("src_key", .jstr (_norm_text (pyGet fields "src_key"))),
         ("etag", .jstr (_norm_text (pyGet fields "etag")))]
  | _ => .error (.attributeError "msg has no attribute get")

/-! ## `db.py` — `upsert_rows`

`upsert_rows` executes, per row and in order (`executemany`), an
`INSERT ... ON CONFLICT (provider, branch, doc_type, ts, product) DO UPDATE
SET unit, price, src_key, etag, updated_at = NOW()`.  The table state is a
list of keyed rows each carrying its `updated_at` stamp; `NOW()` is the
`now` parameter.  Key comparison is `JVal` equality: the normalizer renders
timestamps in one canonical form (`...Z` with microseconds either absent or
six digits), under which text equality and the column types' equality
coincide. -/

/-- The natural key `(provider, branch, doc_type, ts, product)`. -/
def Row.key (r : Row) : JVal × JVal × JVal × JVal × JVal :=
  (r.provider, r.branch, r.doc_type, r.ts, r.product)

/-- A stored row: the column data plus its `updated_at` stamp. -/
structure DbRow : Type where
  data : Row
  updated_at : Nat
deriving DecidableEq

/-- The `DO UPDATE SET` clause: overwrite `unit`, `price`, `src_key`, `etag`
of the existing row `e` with the excluded row `r`; key columns untouched. -/
def mergeRow (e r : Row) : Row :=
  { e with unit := r.unit, price := r.price, src_key := r.src_key, etag := r.etag }

/-- Data-level single-row upsert step (see `applyRow` for the stamped one). -/
def updIf (r e : Row) : Row := if e.key = r.key then mergeRow e r else e

/-- Data-level effect of one `INSERT ... ON CONFLICT DO UPDATE`. -/
def applyData (ds : List Row) (r : Row) : List Row :=
  if ds.any (fun e => e.key == r.key) then ds.map (updIf r) else ds ++ [r]

/-- One `INSERT ... ON CONFLICT DO UPDATE`, stamping `updated_at = NOW()` on
the touched row. -/
def applyRow (db : List DbRow) (r : Row) (now : Nat) : List DbRow :=
  if db.any (fun e => e.data.key == r.key) then
    db.map (fun e => if e.data.key = r.key then ⟨mergeRow e.data r, now⟩ else e)
  else db ++ [⟨r, now⟩]

/-- `upsert_rows` (`db.py` lines 41–66): run the statement for every row in
order and report `len(params)`.  (`rows = []` short-circuits to `0` in the
source; the fold agrees.) -/
def upsert_rows (db : List DbRow) (rows : List Row) (now : Nat) :
    List DbRow × Nat :=
  (rows.foldl (fun acc r => applyRow acc r now) db, rows.length)

/-! ## `json` model — printer

`json.dumps` with its defaults: `ensure_ascii=True` (everything outside
printable ASCII is `\uXXXX`-escaped, astral characters as surrogate pairs)
and separators `", "` / `": "`.  Numbers print as exact decimals, the
non-finite floats as the Python constants `NaN` / `Infinity` / `-Infinity`. -/

def hexDigitChar (d : Nat) : Char :=
  if d < 10 then Char.ofNat (48 + d) else Char.ofNat (87 + d)

def hex4 (n : Nat) : List Char :=
  [hexDigitChar (n / 4096 % 16), hexDigitChar (n / 256 % 16),
   hexDigitChar (n / 16 % 16), hexDigitChar (n % 16)]

/-- `json.dumps` escaping of one character (`ensure_ascii=True`). -/
def escapeChar (c : Char) : List Char :=
  if c = '"' then ['\\', '"']
  else if c = '\\' then ['\\', '\\']
  else if c = '\n' then ['\\', 'n']
  else if c = '\r' then ['\\', 'r']
  else if c = '\t' then ['\\', 't']
  else if c = '\x08' then ['\\', 'b']
  else if c = '\x0c' then ['\\', 'f']
  else if 0x20 ≤ c.toNat ∧ c.toNat ≤ 0x7e then [c]
  else if c.toNat < 0x10000 then '\\' :: 'u' :: hex4 c.toNat
  else
    let v := c.toNat - 0x10000
    ('\\' :: 'u' :: hex4 (0xd800 + v / 0x400))
      ++ ('\\' :: 'u' :: hex4 (0xdc00 + v % 0x400))

/-- The characters of a dumped string literal, quotes excluded. -/
def strBody (s : String) : List Char := s.data.bind escapeChar

/-- A dumped string literal. -/
def printString (s : String) : List Char := '"' :: strBody s ++ ['"']

/-- A dumped number. -/
def printNum : PyFloat → List Char
  | .finite m e => renderFinite m e
  | .inf => "Infinity".data
  | .neginf => "-Infinity".data
  | .nan => "NaN".data

mutual

/-- `json.dumps` (as a character list). -/
def printVal : JVal → List Char
  | .jnull => "null".data
  | .jbool true => "true".data
  | .jbool false => "false".data
  | .jnum f => printNum f
  | .jstr s => printString s
  | .jarr [] => ['[', ']']
  | .jarr (x :: xs) => '[' :: (printVal x ++ printElemsRest xs ++ [']'])
  | .jobj [] => ['\x7b', '\x7d']
  | .jobj ((k, v) :: kvs) =>
    '\x7b' :: (printString k ++ ':' :: ' ' :: printVal v
      ++ printMembersRest kvs ++ ['\x7d'])

/-- `", elem"` for each further array element. -/
def printElemsRest : List JVal → List Char
  | [] => []
  | x :: xs => ',' :: ' ' :: (printVal x ++ printElemsRest xs)

/-- `", \"key\": value"` for each further object member. -/
def printMembersRest : List (String × JVal) → List Char
  | [] => []
  | (k, v) :: kvs =>
    ',' :: ' ' :: (printString k ++ ':' :: ' ' :: printVal v ++ printMembersRest kvs)

end

/-- `json.dumps` as a string. -/
def json_dumps (v : JVal) : String := String.mk (printVal v)

/-! ## `json` model — parser

`json.loads` with its defaults (`strict=True`, constants `NaN` etc.
accepted).  A fueled recursive descent; `json_loads` supplies fuel larger
than any value the text can denote.  The one divergence from CPython: a
lone UTF-16 surrogate escape is a parse error here, since a Lean `Char`
cannot carry it; CPython's scanner accepts it.  No printed output and no
claim contains one. -/

/-- JSON whitespace (`[ \t\n\r]`). -/
def isJsonWs (c : Char) : Bool := c = ' ' || c = '\t' || c = '\n' || c = '\r'

def skipWs (cs : List Char) : List Char := cs.dropWhile isJsonWs

def parseHexDigit (c : Char) : Option Nat :=
  if '0' ≤ c ∧ c ≤ '9' then some (c.toNat - 48)
  else if 'a' ≤ c ∧ c ≤ 'f' then some (c.toNat - 87)
  else if 'A' ≤ c ∧ c ≤ 'F' then some (c.toNat - 55)
  else none

def hex4Val (a b c d : Char) : Option Nat := do
  let va ← parseHexDigit a
  let vb ← parseHexDigit b
  let vc ← parseHexDigit c
  let vd ← parseHexDigit d
  pure (((va * 16 + vb) * 16 + vc) * 16 + vd)

/-- Prepend a character to the parsed-so-far content of a string body. -/
def consFst (c : Char) : Option (List Char × List Char) → Option (List Char × List Char) :=
  Option.map (fun p => (c :: p.1, p.2))

/-- The body of a string literal after the opening quote: content up to the
closing quote, unescaped, plus the remainder after it. -/
def parseStringBody : List Char → Option (List Char × List Char)
  | [] => none
  | '"' :: rest => some ([], rest)
  | '\\' :: esc =>
    match esc with
    | '"' :: r => consFst '"' (parseStringBody r)
    | '\\' :: r => consFst '\\' (parseStringBody r)
    | '/' :: r => consFst '/' (parseStringBody r)
    | 'b' :: r => consFst '\x08' (parseStringBody r)
    | 'f' :: r => consFst '\x0c' (parseStringBody r)
    | 'n' :: r => consFst '\n' (parseStringBody r)
    | 'r' :: r => consFst '\r' (parseStringBody r)
    | 't' :: r => consFst '\t' (parseStringBody r)
    | 'u' :: a :: b :: c :: d :: r =>
      match hex4Val a b c d with
      | none => none
      | some v =>
        if 0xd800 ≤ v ∧ v ≤ 0xdbff then
          match r with
          | '\\' :: 'u' :: a2 :: b2 :: c2 :: d2 :: r2 =>
            match hex4Val a2 b2 c2 d2 with
            | none => none
            | some v2 =>
              if 0xdc00 ≤ v2 ∧ v2 ≤ 0xdfff then
                consFst (Char.ofNat (0x10000 + (v - 0xd800) * 0x400 + (v2 - 0xdc00)))
                  (parseStringBody r2)
              else none
          | _ => none
        else if 0xdc00 ≤ v ∧ v ≤ 0xdfff then none
        else consFst (Char.ofNat v) (parseStringBody r)
    | _ => none
  | c :: rest => if c.toNat < 0x20 then none else consFst c (parseStringBody rest)

/-- Build the exact decimal denoted by sign, integer digits, fraction digits
and decimal exponent. -/
def mkDecimal (neg : Bool) (intDs fracDs : List Char) (k : Int) : PyFloat :=
  let m0 : Int := digitsToNat (intDs ++ fracDs)
  let m1 : Int := if neg then -m0 else m0
  let e0 : Nat := fracDs.length
  if (e0 : Int) ≤ k then .finite (m1 * 10 ^ (k - e0).toNat) 0
  else .finite m1 ((e0 : Int) - k).toNat

/-- The `(\.\d+)?` group: fraction digits and remainder. -/
def splitFrac (r1 : List Char) : List Char × List Char :=
  match r1 with
  | '.' :: d :: rest' =>
    if d.isDigit then ((d :: rest').takeWhile Char.isDigit,
                       (d :: rest').dropWhile Char.isDigit)
    else ([], r1)
  | _ => ([], r1)

/-- The `([eE][-+]?\d+)?` group: decimal exponent and remainder. -/
def splitExp (r2 : List Char) : Int × List Char :=
  match r2 with
  | e :: rest' =>
    if e = 'e' || e = 'E' then
      let (eneg, r'') : Bool × List Char :=
        match rest' with
        | '+' :: q => (false, q)
        | '-' :: q => (true, q)
        | q => (false, q)
      let eds := r''.takeWhile Char.isDigit
      if eds = [] then (0, r2)
      else ((if eneg then -(digitsToNat eds : Int) else (digitsToNat eds : Int)),
            r''.dropWhile Char.isDigit)
    else (0, r2)
  | _ => (0, r2)

/-- The sign-free part of the JSON number parse (see `parseJNum`). -/
def parseJNumCore (neg : Bool) (cs1 : List Char) : Option (PyFloat × List Char) :=
  match cs1 with
  | [] => none
  | c0 :: _ =>
    if !c0.isDigit then none
    else
      let intDs0 := cs1.takeWhile Char.isDigit
      let r0 := cs1.dropWhile Char.isDigit
      -- the regex alternation (0|[1-9]\d*) stops after a leading zero
      let p1 : List Char × List Char :=
        if intDs0.head? = some '0' ∧ intDs0.length > 1 then
          (['0'], intDs0.drop 1 ++ r0)
        else (intDs0, r0)
      let p2 := splitFrac p1.2
      let p3 := splitExp p2.2
      some (mkDecimal neg p1.1 p2.1 p3.1, p3.2)

/-- Maximal-munch parse of the JSON number grammar
`-?(0|[1-9]\d*)(\.\d+)?([eE][-+]?\d+)?` (CPython's `NUMBER_RE`). -/
def parseJNum (cs : List Char) : Option (PyFloat × List Char) :=
  match cs with
  | '-' :: r => parseJNumCore true r
  | r => parseJNumCore false r

mutual

/-- Fueled parse of one JSON value starting at `cs` (no leading whitespace). -/
def parseVal : Nat → List Char → Option (JVal × List Char)
  | 0, _ => none
  | Nat.succ f, cs =>
    match cs with
    | 'n' :: 'u' :: 'l' :: 'l' :: rest => some (.jnull, rest)
    | 't' :: 'r' :: 'u' :: 'e' :: rest => some (.jbool true, rest)
    | 'f' :: 'a' :: 'l' :: 's' :: 'e' :: rest => some (.jbool false, rest)
    | 'N' :: 'a' :: 'N' :: rest => some (.jnum .nan, rest)
    | 'I' :: 'n' :: 'f' :: 'i' :: 'n' :: 'i' :: 't' :: 'y' :: rest =>
      some (.jnum .inf, rest)
    | '-' :: 'I' :: 'n' :: 'f' :: 'i' :: 'n' :: 'i' :: 't' :: 'y' :: rest =>
      some (.jnum .neginf, rest)
    | '"' :: rest =>
      (parseStringBody rest).map (fun p => (.jstr (String.mk p.1), p.2))
    | '[' :: rest =>
      (match skipWs rest with
      | ']' :: r2 => some (.jarr [], r2)
      | rest1 =>
        match parseVal f rest1 with
        | none => none
        | some (v, r2) =>
          match parseArrTail f (skipWs r2) with
          | none => none
          | some (vs, r3) => some (.jarr (v :: vs), r3))
    | '\x7b' :: rest =>
      (match skipWs rest with
      | '\x7d' :: r2 => some (.jobj [], r2)
      | '"' :: r2 =>
        (match parseStringBody r2 with
        | none => none
        | some (kcs, r3) =>
          match skipWs r3 with
          | ':' :: r4 =>
            (match parseVal f (skipWs r4) with
            | none => none
            | some (v, r5) =>
              match parseObjTail f (skipWs r5) with
              | none => none
              | some (kvs, r6) => some (.jobj ((String.mk kcs, v) :: kvs), r6))
          | _ => none)
      | _ => none)
    | _ => (parseJNum cs).map (fun p => (.jnum p.1, p.2))

/-- After one array element (whitespace skipped): `]` ends, `, value` adds. -/
def parseArrTail : Nat → List Char → Option (List JVal × List Char)
  | 0, _ => none
  | Nat.succ f, cs =>
    match cs with
    | ']' :: rest => some ([], rest)
    | ',' :: rest =>
      (match parseVal f (skipWs rest) with
      | none => none
      | some (v, r2) =>
        match parseArrTail f (skipWs r2) with
        | none => none
        | some (vs, r3) => some (v :: vs, r3))
    | _ => none

/-- After one object member (whitespace skipped): `RBRACE` ends,
`, "key": value` adds. -/
def parseObjTail : Nat → List Char → Option (List (String × JVal) × List Char)
  | 0, _ => none
  | Nat.succ f, cs =>
    match cs with
    | '\x7d' :: rest => some ([], rest)
    | ',' :: rest =>
      (match skipWs rest with
      | '"' :: r2 =>
        (match parseStringBody r2 with
        | none => none
        | some (kcs, r3) =>
          match skipWs r3 with
          | ':' :: r4 =>
            (match parseVal f (skipWs r4) with
            | none => none
            | some (v, r5) =>
              match parseObjTail f (skipWs r5) with
              | none => none
              | some (kvs, r6) => some ((String.mk kcs, v) :: kvs, r6))
          | _ => none)
      | _ => none)
    | _ => none

end

/-- `json.loads`: optional whitespace, one value, optional whitespace,
end of input. -/
def json_loads (s : String) : Option JVal :=
  match parseVal (s.data.length + 1) (skipWs s.data) with
  | some (v, rest) => if skipWs rest = [] then some v else none
  | none => none

/-! ## `consumer.py` -/

/-- `_json_loads_maybe_twice` (`consumer.py` lines 59–68): tolerate a UTF-8
BOM prefix (`lstrip` removes every leading BOM) and one level of
double-encoding. -/
def bomStrip (s : String) : String :=
  match s.data with
  | c :: _ =>
    if c = '\uFEFF' then String.mk (s.data.dropWhile (fun x => x = '\uFEFF')) else s
  | [] => s

def _json_loads_maybe_twice (s : String) : Except PyErr JVal :=
  let s1 := bomStrip s
  match json_loads s1 with
  | none => .error (.jsonDecodeError "Expecting value")
  | some obj =>
    match obj with
    | .jstr t =>
      let t1 := bomStrip t
      match json_loads t1 with
      | none => .error (.jsonDecodeError "Expecting value")
      | some obj2 => .ok obj2
    | _ => .ok obj

/-- `_process_doc` (`consumer.py` lines 128–144).  The storage interaction
(`get_conn` / `upsert_rows` / `commit`) either completes — in which case
`upsert_rows` reports `len(rows)` — or raises; which of the two is the
`dbFail` input.  The metrics `_incr` is a logging no-op. -/
def _process_doc (cfg : NormCfg) (now : PyDateTime) (dbFail : Option String)
    (doc : JVal) : Except PyErr Nat := do
  let norm ← normalize_message cfg now doc
  let _ ← validate_doc norm
  let rows ← doc_to_rows norm
  match dbFail with
  | some e => .error (.storageError e)
  | none => .ok rows.length

/-- The consumer's queue configuration (`QUEUE_PROVIDER`, `DLQ_URL` env
vars). -/
structure ConsumerEnv : Type where
  queueProviderEnv : Option String := none
  dlqUrl : Option String := none
deriving DecidableEq, Repr

/-- `QUEUE_PROVIDER = os.getenv("QUEUE_PROVIDER", "sqs").lower()`. -/
def QUEUE_PROVIDER (env : ConsumerEnv) : String :=
  pyLower (env.queueProviderEnv.getD "sqs")

/-- The `if not DLQ_URL` test: unset or empty. -/
def dlqUnset (env : ConsumerEnv) : Bool :=
  match env.dlqUrl with
  | none => true
  | some u => u = ""

/-- What became of one `_send_to_dlq` call. -/
inductive DlqOutcome : Type where
  /-- `QUEUE_PROVIDER != "sqs"`: immediate return, message dropped. -/
  | skippedNotSqs
  /-- `DLQ_URL` unset/empty: logged and dropped, retained nowhere. -/
  | droppedNoUrl
  /-- `send_message` succeeded with the given `MessageBody`. -/
  | sent (messageBody : String)
  /-- `send_message` raised a `BotoCoreError`/`ClientError`; logged and
  swallowed. -/
  | sendFailed (e : String)
deriving DecidableEq, Repr

/-- `sqs.send_message`, whose outcome is the `sendFail` input. -/
def sqsSendMessage (sendFail : Option String) : Except PyErr Unit :=
  match sendFail with
  | none => .ok ()
  | some e => .error (.storageError e)

/-- `_send_to_dlq` (`consumer.py` lines 71–86).  The `try` block wraps the
single `send_message` call and its `except (BotoCoreError, ClientError)`
logs and swallows, so the `.error` case of the result is syntactically
possible but never produced — which is the propagation behaviour under
verification. -/
def _send_to_dlq (env : ConsumerEnv) (sendFail : Option String)
    (original_body err_msg : String) : Except PyErr DlqOutcome :=
  if QUEUE_PROVIDER env ≠ "sqs" then .ok .skippedNotSqs
  else if dlqUnset env then .ok .droppedNoUrl
  else
    match sqsSendMessage sendFail with
    | .ok () =>
      .ok (.sent (json_dumps (.jobj [("error", .jstr err_msg),
                                     ("original", .jstr original_body)])))
    | .error e => .ok (.sendFailed e.toMsg)

/-- One record of a `Records` batch event (the two fields the handler
reads). -/
structure SqsRec : Type where
  body : Option String := none
  messageId : Option String := none
deriving DecidableEq, Repr

/-- `rec.get("messageId", "unknown")`. -/
def SqsRec.idOf (rec : SqsRec) : String := rec.messageId.getD "unknown"

/-- `rec.get("body", "")`. -/
def SqsRec.bodyOf (rec : SqsRec) : String := rec.body.getD ""

/-- The handler's result on a `Records` event. -/
inductive LambdaResult : Type where
  | batchItemFailures (ids : List String)
  | okUpserted (total : Nat)
deriving DecidableEq, Repr

/-- Per-message external outcomes for a batch: the storage outcome and the
DLQ-send outcome of the message at each index. -/
structure BatchOracle : Type where
  dbFail : Nat → Option String
  sqsSendFail : Nat → Option String

/-- The per-message pipeline: decode, then normalize/validate/flatten/upsert. -/
def processOneBody (cfg : NormCfg) (now : PyDateTime) (dbFail : Option String)
    (body : String) : Except PyErr Nat := do
  let doc ← _json_loads_maybe_twice body
  _process_doc cfg now dbFail doc

/-- One iteration of the handler's record loop (`consumer.py` lines
163–174): accumulate the upserted count on success; on any exception send
the raw body to the DLQ and append the message's identifier to the failure
list. -/
def handlerStep (env : ConsumerEnv) (cfg : NormCfg) (now : PyDateTime)
    (oracle : BatchOracle) (st : Nat × List String × List DlqOutcome)
    (ir : Nat × SqsRec) : Except PyErr (Nat × List String × List DlqOutcome) :=
  let (total, failures, dlog) := st
  let (i, rec) := ir
  match processOneBody cfg now (oracle.dbFail i) rec.bodyOf with
  | .ok n => pure (total + n, failures, dlog)
  | .error e => do
    let o ← _send_to_dlq env (oracle.sqsSendFail i) rec.bodyOf e.toMsg
    pure (total, failures ++ [rec.idOf], dlog ++ [o])

/-- `lambda_handler` on a `Records` event (`consumer.py` lines 160–178),
together with the trace of its dead-letter sends.  The administrative
`setup`/`probe`/`count` actions and the non-batch CLI entry points reuse
the same pieces and are outside every claim. -/
def lambda_handler_records (env : ConsumerEnv) (cfg : NormCfg)
    (now : PyDateTime) (oracle : BatchOracle) (recs : List SqsRec) :
    Except PyErr (LambdaResult × List DlqOutcome) := do
  let st ← recs.enum.foldlM (handlerStep env cfg now oracle) (0, [], [])
  let (total, failures, dlog) := st
  pure (if failures ≠ [] then (.batchItemFailures failures, dlog)
        else (.okUpserted total, dlog))

/-! ## Properties of the upsert (towards C1) -/

/-- The natural-key type. -/
abbrev RKey : Type := JVal × JVal × JVal × JVal × JVal

/-- Some row in `ds` carries the key `k`. -/
def keyMem (ds : List Row) (k : RKey) : Prop := ∃ e ∈ ds, e.key = k

/-- The data projection of a store. -/
def dataOf (db : List DbRow) : List Row := db.map DbRow.data

/-- The last row of `rows` carrying key `k`, if any (the winner of the
sequential `executemany`). -/
def findLast : List Row → RKey → Option Row
  | [], _ => none
  | r :: rs, k =>
    match findLast rs k with
    | some x => some x
    | none => if r.key = k then some r else none

/-- What one whole `upsert_rows` call leaves of an existing row. -/
def replaceByLast (rows : List Row) (e : Row) : Row :=
  match findLast rows e.key with
  | some r => mergeRow e r
  | none => e

/-- Data-level whole-call upsert. -/
def upsertData (ds : List Row) (rows : List Row) : List Row :=
  rows.foldl applyData ds

theorem mergeRow_key (e r : Row) : (mergeRow e r).key = e.key := rfl

theorem mergeRow_eq_of_key (e r : Row) (h : e.key = r.key) : mergeRow e r = r := by
  cases e; cases r
  simp only [Row.key, Prod.mk.injEq] at h
  obtain ⟨h1, h2, h3, h4, h5⟩ := h
  simp [mergeRow, h1, h2, h3, h4, h5]

theorem mergeRow_merge (e r r' : Row) :
    mergeRow (mergeRow e r) r' = mergeRow e r' := rfl

theorem updIf_key (r e : Row) : (updIf r e).key = e.key := by
  unfold updIf; split
  · exact mergeRow_key e r
  · rfl

theorem any_key_iff (ds : List Row) (r : Row) :
    ds.any (fun e => e.key == r.key) = true ↔ keyMem ds r.key := by
  simp [List.any_eq_true, keyMem, beq_iff_eq]

theorem applyData_present {ds : List Row} {r : Row} (h : keyMem ds r.key) :
    applyData ds r = ds.map (updIf r) := by
  unfold applyData
  rw [if_pos ((any_key_iff ds r).2 h)]

theorem applyData_absent {ds : List Row} {r : Row} (h : ¬ keyMem ds r.key) :
    applyData ds r = ds ++ [r] := by
  unfold applyData
  rw [if_neg (fun hh => h ((any_key_iff ds r).1 hh))]

theorem replaceByLast_key (rows : List Row) (e : Row) :
    (replaceByLast rows e).key = e.key := by
  unfold replaceByLast
  cases findLast rows e.key
  · rfl
  · exact mergeRow_key e _

theorem findLast_cons (r : Row) (rs : List Row) (k : RKey) :
    findLast (r :: rs) k =
      match findLast rs k with
      | some x => some x
      | none => if r.key = k then some r else none := rfl

theorem replaceByLast_updIf (r : Row) (rs : List Row) (e : Row) :
    replaceByLast rs (updIf r e) = replaceByLast (r :: rs) e := by
  cases hf : findLast rs e.key with
  | some x =>
    have h1 : replaceByLast rs (updIf r e) = mergeRow (updIf r e) x := by
      unfold replaceByLast; rw [updIf_key, hf]
    have h2 : replaceByLast (r :: rs) e = mergeRow e x := by
      unfold replaceByLast; rw [findLast_cons, hf]
    rw [h1, h2]
    unfold updIf
    by_cases hk : e.key = r.key
    · rw [if_pos hk]; exact mergeRow_merge e r x
    · rw [if_neg hk]
  | none =>
    have h1 : replaceByLast rs (updIf r e) = updIf r e := by
      unfold replaceByLast; rw [updIf_key, hf]
    rw [h1]
    by_cases hk : r.key = e.key
    · have h2 : replaceByLast (r :: rs) e = mergeRow e r := by
        unfold replaceByLast; rw [findLast_cons, hf]
        simp [if_pos hk]
      rw [h2]; unfold updIf; rw [if_pos hk.symm]
    · have h2 : replaceByLast (r :: rs) e = e := by
        unfold replaceByLast; rw [findLast_cons, hf]
        simp [if_neg hk]
      rw [h2]; unfold updIf; rw [if_neg (fun hh => hk hh.symm)]

theorem keyMem_map_updIf (ds : List Row) (r : Row) (k : RKey) :
    keyMem (ds.map (updIf r)) k ↔ keyMem ds k := by
  unfold keyMem
  constructor
  · rintro ⟨e, he, hk⟩
    obtain ⟨e0, he0, rfl⟩ := List.mem_map.1 he
    exact ⟨e0, he0, (updIf_key r e0) ▸ hk⟩
  · rintro ⟨e, he, hk⟩
    exact ⟨updIf r e, List.mem_map_of_mem _ he, (updIf_key r e).trans hk⟩

theorem keyMem_applyData (ds : List Row) (r : Row) (k : RKey) :
    keyMem (applyData ds r) k ↔ keyMem ds k ∨ r.key = k := by
  by_cases h : keyMem ds r.key
  · rw [applyData_present h, keyMem_map_updIf]
    constructor
    · exact Or.inl
    · rintro (hh | hh)
      · exact hh
      · exact hh ▸ h
  · rw [applyData_absent h]
    unfold keyMem
    simp only [List.mem_append, List.mem_singleton]
    constructor
    · rintro ⟨e, (he | rfl), hk⟩
      · exact Or.inl ⟨e, he, hk⟩
      · exact Or.inr hk
    · rintro (⟨e, he, hk⟩ | hk)
      · exact ⟨e, Or.inl he, hk⟩
      · exact ⟨r, Or.inr rfl, hk⟩

theorem keyMem_upsertData (rows : List Row) :
    ∀ ds k, keyMem (upsertData ds rows) k ↔
      keyMem ds k ∨ ∃ r ∈ rows, r.key = k := by
  induction rows with
  | nil => intro ds k; simp [upsertData]
  | cons r rs ih =>
    intro ds k
    show keyMem (upsertData (applyData ds r) rs) k ↔ _
    rw [ih, keyMem_applyData]
    simp only [List.mem_cons]
    constructor
    · rintro ((h | h) | ⟨x, hx, hk⟩)
      · exact Or.inl h
      · exact Or.inr ⟨r, Or.inl rfl, h⟩
      · exact Or.inr ⟨x, Or.inr hx, hk⟩
    · rintro (h | ⟨x, (rfl | hx), hk⟩)
      · exact Or.inl (Or.inl h)
      · exact Or.inl (Or.inr hk)
      · exact Or.inr ⟨x, hx, hk⟩

theorem replaceByLast_nil (e : Row) : replaceByLast [] e = e := rfl

theorem upsertData_all_present (rows : List Row) :
    ∀ ds, (∀ r ∈ rows, keyMem ds r.key) →
      upsertData ds rows = ds.map (replaceByLast rows) := by
  induction rows with
  | nil =>
    intro ds _
    show ds = ds.map (replaceByLast [])
    rw [List.map_congr_left (fun e _ => replaceByLast_nil e), List.map_id']
  | cons r rs ih =>
    intro ds h
    show upsertData (applyData ds r) rs = _
    rw [applyData_present (h r (by simp))]
    rw [ih (ds.map (updIf r)) (fun x hx =>
      (keyMem_map_updIf ds r x.key).2 (h x (by simp [hx])))]
    rw [List.map_map]
    exact List.map_congr_left (fun e _ => replaceByLast_updIf r rs e)

theorem upsertData_split (rows : List Row) :
    ∀ ds, ∃ fresh, upsertData ds rows = ds.map (replaceByLast rows) ++ fresh
      ∧ ∀ e ∈ fresh, ¬ keyMem ds e.key := by
  induction rows with
  | nil =>
    intro ds
    refine ⟨[], ?_, by simp⟩
    show ds = ds.map (replaceByLast []) ++ []
    rw [List.map_congr_left (fun e _ => replaceByLast_nil e), List.map_id',
      List.append_nil]
  | cons r rs ih =>
    intro ds
    show ∃ fresh, upsertData (applyData ds r) rs = _ ∧ _
    by_cases h : keyMem ds r.key
    · rw [applyData_present h]
      obtain ⟨fresh, heq, hkeys⟩ := ih (ds.map (updIf r))
      refine ⟨fresh, ?_, fun e he => ?_⟩
      · rw [heq, List.map_map]
        congr 1
        exact List.map_congr_left (fun e _ => replaceByLast_updIf r rs e)
      · exact fun hm => hkeys e he ((keyMem_map_updIf ds r e.key).2 hm)
    · rw [applyData_absent h]
      obtain ⟨fresh, heq, hkeys⟩ := ih (ds ++ [r])
      refine ⟨replaceByLast rs r :: fresh, ?_, ?_⟩
      · rw [heq, List.map_append]
        have hmap : ds.map (replaceByLast rs) = ds.map (replaceByLast (r :: rs)) := by
          apply List.map_congr_left
          intro e he
          unfold replaceByLast
          rw [findLast_cons]
          cases hf : findLast rs e.key with
          | some x => rfl
          | none =>
            have : ¬ r.key = e.key := fun hh => h ⟨e, he, hh.symm⟩
            simp [this]
        rw [← hmap]
        simp
      · intro e he
        rcases List.mem_cons.1 he with rfl | hmem
        · rw [replaceByLast_key]
          exact h
        · intro hm
          apply hkeys e hmem
          obtain ⟨x, hx, hk⟩ := hm
          exact ⟨x, List.mem_append.2 (Or.inl hx), hk⟩

theorem applyData_key_eq (ds : List Row) (r : Row) :
    ∀ e ∈ applyData ds r, e.key = r.key → e = r := by
  intro e he hk
  by_cases h : keyMem ds r.key
  · rw [applyData_present h] at he
    obtain ⟨e0, _, rfl⟩ := List.mem_map.1 he
    unfold updIf at hk ⊢
    by_cases h0 : e0.key = r.key
    · rw [if_pos h0]
      exact mergeRow_eq_of_key e0 r h0
    · rw [if_neg h0] at hk
      exact absurd hk h0
  · rw [applyData_absent h] at he
    rcases List.mem_append.1 he with hm | hm
    · exact absurd ⟨e, hm, hk⟩ h
    · exact List.mem_singleton.1 hm

theorem upsertData_untouched (rows : List Row) :
    ∀ ds e, e ∈ upsertData ds rows → (∀ r ∈ rows, r.key ≠ e.key) → e ∈ ds := by
  induction rows with
  | nil => intro ds e he _; exact he
  | cons r rs ih =>
    intro ds e he hk
    have h1 : e ∈ applyData ds r := ih (applyData ds r) e he (fun x hx => hk x (by simp [hx]))
    have hr : r.key ≠ e.key := hk r (by simp)
    by_cases h : keyMem ds r.key
    · rw [applyData_present h] at h1
      obtain ⟨e0, he0, rfl⟩ := List.mem_map.1 h1
      unfold updIf
      by_cases h0 : e0.key = r.key
      · exfalso
        apply hr
        rw [updIf_key, h0]
      · rw [if_neg h0]; exact he0
    · rw [applyData_absent h] at h1
      rcases List.mem_append.1 h1 with hm | hm
      · exact hm
      · exact absurd (congrArg Row.key (List.mem_singleton.1 hm)).symm hr

theorem findLast_eq_none (rs : List Row) (k : RKey) :
    findLast rs k = none ↔ ∀ r ∈ rs, r.key ≠ k := by
  induction rs with
  | nil => simp [findLast]
  | cons r rs ih =>
    constructor
    · intro h x hx
      rw [findLast_cons] at h
      cases hf : findLast rs k with
      | some y => rw [hf] at h; simp at h
      | none =>
        rw [hf] at h
        simp only at h
        rcases List.mem_cons.1 hx with rfl | hm
        · intro hh
          rw [if_pos hh] at h
          simp at h
        · exact ih.1 hf x hm
    · intro h
      rw [findLast_cons]
      have hnone : findLast rs k = none := ih.2 (fun x hx => h x (by simp [hx]))
      rw [hnone]
      simp only
      rw [if_neg (h r (by simp))]

theorem upsertData_last (rows : List Row) :
    ∀ ds e, e ∈ upsertData ds rows →
      ∀ r, findLast rows e.key = some r → e = r := by
  induction rows with
  | nil => intro ds e _ r hr; simp [findLast] at hr
  | cons r0 rs ih =>
    intro ds e he r hr
    rw [findLast_cons] at hr
    cases hf : findLast rs e.key with
    | some x =>
      rw [hf] at hr
      simp only [Option.some.injEq] at hr
      exact hr ▸ ih (applyData ds r0) e he x hf
    | none =>
      rw [hf] at hr
      simp only at hr
      by_cases hk : r0.key = e.key
      · rw [if_pos hk] at hr
        simp only [Option.some.injEq] at hr
        have h1 : e ∈ applyData ds r0 :=
          upsertData_untouched rs (applyData ds r0) e he
            ((findLast_eq_none rs e.key).1 hf)
        exact hr ▸ applyData_key_eq ds r0 e h1 hk.symm
      · rw [if_neg hk] at hr
        exact absurd hr (by simp)

theorem upsertData_keys_present (ds : List Row) (rows : List Row) :
    ∀ r ∈ rows, keyMem (upsertData ds rows) r.key := by
  intro r hr
  exact (keyMem_upsertData rows ds r.key).2 (Or.inr ⟨r, hr, rfl⟩)

/-- Running the same `rows` a second time does not change the data. -/
theorem upsertData_idem (ds : List Row) (rows : List Row) :
    upsertData (upsertData ds rows) rows = upsertData ds rows := by
  rw [upsertData_all_present rows (upsertData ds rows)
    (upsertData_keys_present ds rows)]
  have h1 : (upsertData ds rows).map (replaceByLast rows)
      = (upsertData ds rows).map (fun e => e) := by
    apply List.map_congr_left
    intro e he
    unfold replaceByLast
    cases hf : findLast rows e.key with
    | none => rfl
    | some r =>
      have := upsertData_last rows ds e he r hf
      subst this
      exact mergeRow_eq_of_key _ _ rfl
  rw [h1, List.map_id']

/-! Projection of the stamped store to its data. -/

theorem applyRow_data (db : List DbRow) (r : Row) (now : Nat) :
    dataOf (applyRow db r now) = applyData (dataOf db) r := by
  unfold applyRow applyData dataOf
  have hc : ((db.map DbRow.data).any fun e => e.key == r.key)
      = (db.any fun e => e.data.key == r.key) := by
    induction db with
    | nil => rfl
    | cons x xs ih => simp [ih]
  rw [hc]
  split
  · rw [List.map_map, List.map_map]
    apply List.map_congr_left
    intro e _
    by_cases h : e.data.key = r.key
    · simp [updIf, h]
    · simp [updIf, h]
  · simp

theorem upsert_rows_data (rows : List Row) :
    ∀ db now, dataOf (upsert_rows db rows now).1 = upsertData (dataOf db) rows := by
  induction rows with
  | nil => intro db now; rfl
  | cons r rs ih =>
    intro db now
    show dataOf (rs.foldl (fun acc x => applyRow acc x now) (applyRow db r now)) = _
    rw [show (upsertData (dataOf db) (r :: rs))
        = upsertData (applyData (dataOf db) r) rs from rfl]
    rw [← applyRow_data db r now]
    exact ih (applyRow db r now) now

/-- How one upsert call may evolve a pre-existing stored row: its key is
unchanged, and either it is untouched, or exactly `unit`, `price`,
`src_key`, `etag` were overwritten from some batch row of the same key and
`updated_at` was stamped. -/
def Evolves (rows : List Row) (t : Nat) (e e' : DbRow) : Prop :=
  e'.data.key = e.data.key ∧
    (e' = e ∨ (e'.updated_at = t ∧
      ∃ r ∈ rows, r.key = e.data.key ∧ e'.data = mergeRow e.data r))

theorem applyRow_evolves (db : List DbRow) (r : Row) (t : Nat) :
    ∀ e ∈ db, ∃ e' ∈ applyRow db r t, Evolves [r] t e e' := by
  intro e he
  unfold applyRow
  split
  · refine ⟨if e.data.key = r.key then ⟨mergeRow e.data r, t⟩ else e,
      List.mem_map_of_mem _ he, ?_⟩
    by_cases h : e.data.key = r.key
    · rw [if_pos h]
      exact ⟨mergeRow_key e.data r, Or.inr ⟨rfl, r, by simp, h.symm, rfl⟩⟩
    · rw [if_neg h]
      exact ⟨rfl, Or.inl rfl⟩
  · exact ⟨e, List.mem_append.2 (Or.inl he), rfl, Or.inl rfl⟩

theorem evolves_trans {r0 : Row} {rs : List Row} {t : Nat} {e e1 e2 : DbRow}
    (h1 : Evolves [r0] t e e1) (h2 : Evolves rs t e1 e2) :
    Evolves (r0 :: rs) t e e2 := by
  obtain ⟨hk1, hc1⟩ := h1
  obtain ⟨hk2, hc2⟩ := h2
  refine ⟨hk2.trans hk1, ?_⟩
  rcases hc1 with rfl | ⟨ht1, r, hr, hrk, hd1⟩
  · rcases hc2 with rfl | ⟨ht2, r, hr, hrk, hd2⟩
    · exact Or.inl rfl
    · exact Or.inr ⟨ht2, r, by simp [hr], hrk, hd2⟩
  · rcases hc2 with rfl | ⟨ht2, r', hr', hrk', hd2⟩
    · have hr0 : r = r0 := by simpa using hr
      exact Or.inr ⟨ht1, r0, by simp, hr0 ▸ hrk, hr0 ▸ hd1⟩
    · refine Or.inr ⟨ht2, r', by simp [hr'], ?_, ?_⟩
      · exact hk1 ▸ hrk'
      · rw [hd2, hd1, mergeRow_merge]

theorem upsert_evolves (rows : List Row) (t : Nat) :
    ∀ db, ∀ e ∈ db, ∃ e' ∈ (upsert_rows db rows t).1, Evolves rows t e e' := by
  induction rows with
  | nil => intro db e he; exact ⟨e, he, rfl, Or.inl rfl⟩
  | cons r rs ih =>
    intro db e he
    obtain ⟨e1, he1, hev1⟩ := applyRow_evolves db r t e he
    obtain ⟨e2, he2, hev2⟩ := ih (applyRow db r t) e1 he1
    exact ⟨e2, he2, evolves_trans hev1 hev2⟩

/-- **C1.** `upsert_rows` is idempotent with respect to the persisted row
set: upserting the same rows twice leaves the same data columns as once
(only the `updated_at` stamps can differ).  On a natural-key collision a
stored row evolves only by overwriting `unit`, `price`, `src_key`, `etag`
from a batch row of the same key plus the `updated_at` stamp, and its key
columns `(provider, branch, doc_type, ts, product)` are never changed.  The
stored key set afterwards is the old keys plus the batch keys; the call
reports `len(rows)`. -/
theorem claim_C1 (db : List DbRow) (rows : List Row) (t1 t2 : Nat) :
    dataOf (upsert_rows (upsert_rows db rows t1).1 rows t2).1
        = dataOf (upsert_rows db rows t1).1
    ∧ (∀ e ∈ db, ∃ e' ∈ (upsert_rows db rows t1).1, Evolves rows t1 e e')
    ∧ (∀ k, keyMem (dataOf (upsert_rows db rows t1).1) k ↔
        keyMem (dataOf db) k ∨ ∃ r ∈ rows, r.key = k)
    ∧ (upsert_rows db rows t1).2 = rows.length := by
  refine ⟨?_, upsert_evolves rows t1 db, ?_, rfl⟩
  · rw [upsert_rows_data rows _ t2, upsert_rows_data rows db t1,
      upsertData_idem]
  · intro k
    rw [upsert_rows_data rows db t1, keyMem_upsertData]

/-! ## Properties of the validator (towards C4, C6, C7) -/

theorem ite_msg_nil (c : Prop) [Decidable c] (m : String) :
    ((if c then [m] else []) = ([] : List String)) ↔ ¬ c := by
  split <;> simp_all

/-- The failure-message list is empty exactly when every rule passes. -/
theorem validationMsgs_eq_nil (doc : JObj) :
    validationMsgs doc = [] ↔
      strTooShort (pyGet doc "provider") = false
      ∧ strTooShort (pyGet doc "branch") = false
      ∧ typeNotAllowed (pyGet doc "type") = false
      ∧ tsBad (pyGet doc "timestamp") = false
      ∧ itemsMsgs (pyGet doc "items") = [] := by
  unfold validationMsgs
  simp [List.append_eq_nil, ite_msg_nil]

/-- **C4.** `validate_doc` raises exactly when at least one rule is
violated, and then its single `ValueError` joins every collected violation
with `"; "`.  In particular a document whose `items` field is missing, not
a list, or an empty list collects the `items` violation and fails. -/
theorem claim_C4 (doc : JObj) :
    (validate_doc doc = .ok () ↔ validationMsgs doc = [])
    ∧ (validationMsgs doc ≠ [] →
        validate_doc doc =
          .error (.valueError (String.intercalate "; " (validationMsgs doc))))
    ∧ ((∀ xs, pyGet doc "items" = .jarr xs → xs = []) →
        "\x27items\x27 must be a non-empty array" ∈ validationMsgs doc
        ∧ validate_doc doc ≠ .ok ()) := by
  refine ⟨?_, ?_, ?_⟩
  · unfold validate_doc validatorErr
    split
    · simp_all
    · simp_all
  · intro h
    unfold validate_doc validatorErr
    rw [if_neg h]
  · intro h
    have hmem : "\x27items\x27 must be a non-empty array"
        ∈ itemsMsgs (pyGet doc "items") := by
      unfold itemsMsgs
      cases hv : pyGet doc "items" with
      | jarr xs =>
        have hxs := h xs hv
        subst hxs
        simp
      | jnull => simp
      | jbool b => simp
      | jnum f => simp
      | jstr s => simp
      | jobj kvs => simp
    have hmem2 : "\x27items\x27 must be a non-empty array" ∈ validationMsgs doc := by
      unfold validationMsgs
      simp only [List.mem_append]
      exact Or.inr hmem
    refine ⟨hmem2, ?_⟩
    have hne : validationMsgs doc ≠ [] := by
      intro hh
      rw [hh] at hmem2
      simp at hmem2
    unfold validate_doc validatorErr
    rw [if_neg hne]
    simp

/-- The per-item checks, independent of the item's position. -/
def itemOk (it : JVal) : Bool :=
  match it with
  | .jobj f =>
    !strTooShort (pyGet f "product") && !strTooShort (pyGet f "unit")
      && (match pyFloat (pyGet f "price") with
          | some p => !p.isNeg
          | none => false)
  | _ => false

theorem itemMsgs_nil_iff (i : Nat) (it : JVal) :
    itemMsgs i it = [] ↔ itemOk it = true := by
  cases it with
  | jobj f =>
    simp only [itemMsgs, itemOk, List.append_eq_nil, ite_msg_nil,
      Bool.and_eq_true, Bool.not_eq_true']
    cases hp : pyFloat (pyGet f "price") with
    | some p =>
      simp only
      cases hn : p.isNeg <;> simp_all
    | none => simp
  | jnull => simp [itemMsgs, itemOk]
  | jbool b => simp [itemMsgs, itemOk]
  | jnum f => simp [itemMsgs, itemOk]
  | jstr s => simp [itemMsgs, itemOk]
  | jarr xs => simp [itemMsgs, itemOk]

theorem itemsMsgs_eq_nil (v : JVal) :
    itemsMsgs v = [] ↔
      ∃ xs, v = .jarr xs ∧ xs ≠ [] ∧ ∀ it ∈ xs, itemOk it = true := by
  cases v with
  | jarr xs =>
    simp only [itemsMsgs]
    by_cases h : xs.length < 1
    · have hnil : xs = [] := List.length_eq_zero.1 (by omega)
      subst hnil
      simp
    · rw [if_neg h]
      rw [List.flatten_eq_nil_iff]
      constructor
      · intro hall
        refine ⟨xs, rfl, fun hh => by simp [hh] at h, ?_⟩
        intro it hit
        obtain ⟨i, hi, rfl⟩ := List.mem_iff_getElem.1 hit
        have hpair : (i, xs[i]) ∈ xs.enum :=
          List.mk_mem_enum_iff_getElem?.2 (List.getElem?_eq_getElem hi)
        have := hall _ (List.mem_map_of_mem _ hpair)
        exact (itemMsgs_nil_iff i xs[i]).1 this
      · rintro ⟨ys, hys, -, hok⟩ l hl
        obtain ⟨p, hp, rfl⟩ := List.mem_map.1 hl
        have hmem : p.2 ∈ xs := by
          obtain ⟨i, x⟩ := p
          have h3 := List.mk_mem_enum_iff_getElem?.1 hp
          have h2 : xs.get? i = some x := by
            rw [List.get?_eq_getElem?]; exact h3
          exact List.get?_mem h2
        have hxs : ys = xs := by
          injection hys with h4
          exact h4.symm
        exact (itemMsgs_nil_iff p.1 p.2).2 (hok p.2 (hxs ▸ hmem))
  | jnull => simp [itemsMsgs]
  | jbool b => simp [itemsMsgs]
  | jnum f => simp [itemsMsgs]
  | jstr s => simp [itemsMsgs]
  | jobj kvs => simp [itemsMsgs]

/-- `validate_doc` succeeds exactly on the fully rule-conforming documents. -/
theorem validate_ok_iff (doc : JObj) :
    validate_doc doc = .ok () ↔
      strTooShort (pyGet doc "provider") = false
      ∧ strTooShort (pyGet doc "branch") = false
      ∧ typeNotAllowed (pyGet doc "type") = false
      ∧ tsBad (pyGet doc "timestamp") = false
      ∧ ∃ xs, pyGet doc "items" = .jarr xs ∧ xs ≠ []
          ∧ ∀ it ∈ xs, itemOk it = true := by
  have h1 : validate_doc doc = .ok () ↔ validationMsgs doc = [] := by
    unfold validate_doc validatorErr
    split <;> simp_all
  rw [h1, validationMsgs_eq_nil, itemsMsgs_eq_nil]

/-- **C6 (amended).**  A document containing an item with a negative price
fails validation; a document containing an item with a non-numeric price
fails validation; and every document that validation accepts has no item
price that compares below zero.  (The claim's stronger conclusion — all
accepted prices satisfy `price >= 0` — fails for `NaN` prices, which
compare neither below zero nor at-or-above zero and are accepted; see the
counterexample.) -/
theorem claim_C6 (doc : JObj) :
    ((∃ xs, pyGet doc "items" = .jarr xs ∧ ∃ it ∈ xs, ∃ f,
        it = .jobj f ∧ ∃ p, pyFloat (pyGet f "price") = some p ∧ p.isNeg = true) →
      validate_doc doc ≠ .ok ())
    ∧ ((∃ xs, pyGet doc "items" = .jarr xs ∧ ∃ it ∈ xs, ∃ f,
        it = .jobj f ∧ pyFloat (pyGet f "price") = none) →
      validate_doc doc ≠ .ok ())
    ∧ (validate_doc doc = .ok () →
      ∃ xs, pyGet doc "items" = .jarr xs ∧
        ∀ it ∈ xs, ∃ f p, it = .jobj f
          ∧ pyFloat (pyGet f "price") = some p ∧ p.isNeg = false) := by
  have hok : ∀ (hv : validate_doc doc = .ok ()) (xs : List JVal),
      pyGet doc "items" = .jarr xs →
      ∀ it ∈ xs, ∃ f p, it = .jobj f
        ∧ pyFloat (pyGet f "price") = some p ∧ p.isNeg = false := by
    intro hv xs hxs it hit
    obtain ⟨-, -, -, -, ys, hys, -, hall⟩ := (validate_ok_iff doc).1 hv
    rw [hxs] at hys
    injection hys with h4
    have hOk := hall it (h4 ▸ hit)
    cases it with
    | jobj f =>
      refine ⟨f, ?_⟩
      simp only [itemOk, Bool.and_eq_true] at hOk
      cases hp : pyFloat (pyGet f "price") with
      | some p =>
        rw [hp] at hOk
        refine ⟨p, rfl, rfl, ?_⟩
        simpa using hOk.2
      | none => rw [hp] at hOk; simp at hOk
    | jnull => simp [itemOk] at hOk
    | jbool b => simp [itemOk] at hOk
    | jnum f => simp [itemOk] at hOk
    | jstr s => simp [itemOk] at hOk
    | jarr l => simp [itemOk] at hOk
  refine ⟨?_, ?_, ?_⟩
  · rintro ⟨xs, hxs, it, hit, f, rfl, p, hp, hneg⟩ hv
    obtain ⟨f', p', hf', hp', hneg'⟩ := hok hv xs hxs _ hit
    injection hf' with h5
    subst h5
    rw [hp] at hp'
    injection hp' with h6
    subst h6
    rw [hneg] at hneg'
    exact absurd hneg' (by simp)
  · rintro ⟨xs, hxs, it, hit, f, rfl, hp⟩ hv
    obtain ⟨f', p', hf', hp', -⟩ := hok hv xs hxs _ hit
    injection hf' with h5
    subst h5
    rw [hp] at hp'
    exact absurd hp' (by simp)
  · intro hv
    obtain ⟨-, -, -, -, xs, hxs, -, -⟩ := (validate_ok_iff doc).1 hv
    exact ⟨xs, hxs, hok hv xs hxs⟩

/-- The single item carrying the string price `"nan"`. -/
def nanItem : JObj :=
  [("product", .jstr "x"), ("unit", .jstr "kg"), ("price", .jstr "nan")]

/-- An otherwise fully valid document whose one item has price `"nan"`. -/
def nanPriceDoc : JObj :=
  [("provider", .jstr "p"), ("branch", .jstr "b"),
   ("type", .jstr "pricesFull"),
   ("timestamp", .jstr "2024-01-05T10:00:00Z"),
   ("items", .jarr [.jobj nanItem])]

/-- **C6 — counterexample to the claim as stated.**  `float("nan")` parses,
`nan < 0` is false, so `validate_doc` accepts the document, yet the item's
price fails `price >= 0`: validation acceptance does not imply all prices
are `>= 0`. -/
theorem claim_C6_counterexample :
    validate_doc nanPriceDoc = .ok ()
    ∧ pyGet nanPriceDoc "items" = .jarr [.jobj nanItem]
    ∧ pyFloat (pyGet nanItem "price") = some PyFloat.nan
    ∧ PyFloat.nan.isGe0 = false := by
  refine ⟨?_, rfl, rfl, rfl⟩
  rfl

/-! ## Properties of the flattener (towards C7) -/

theorem pyIndex_of_pyGet {fields : JObj} {k : String}
    (h : pyGet fields k ≠ .jnull) :
    pyIndex fields k = .ok (pyGet fields k) := by
  unfold pyGet at h
  unfold pyIndex pyGet
  cases hl : fields.lookup k with
  | some v => simp [hl]
  | none => rw [hl] at h; simp at h

theorem mapM_ok_of_forall {α β : Type} (f : α → Except PyErr β) :
    ∀ (l : List α), (∀ a ∈ l, ∃ b, f a = .ok b) →
      ∃ bs, l.mapM f = .ok bs ∧ bs.length = l.length ∧
        ∀ i (hi : i < l.length), ∃ hbi : i < bs.length,
          f (l.get ⟨i, hi⟩) = .ok (bs.get ⟨i, hbi⟩) := by
  intro l
  induction l with
  | nil => intro _; exact ⟨[], rfl, rfl, fun i hi => absurd hi (by simp)⟩
  | cons a l ih =>
    intro h
    obtain ⟨b, hb⟩ := h a (by simp)
    obtain ⟨bs, hbs, hlen, hget⟩ := ih (fun x hx => h x (by simp [hx]))
    refine ⟨b :: bs, ?_, by simp [hlen], ?_⟩
    · rw [List.mapM_cons, hb, hbs]
      rfl
    · intro i hi
      cases i with
      | zero => exact ⟨by simp, hb⟩
      | succ j =>
        have hj : j < l.length := by simpa using hi
        obtain ⟨hbj, hfj⟩ := hget j hj
        exact ⟨by simpa using hbj, hfj⟩

/-- The validated fields are present and non-null. -/
theorem strTooShort_false_shape {v : JVal} (h : strTooShort v = false) :
    ∃ s, v = .jstr s := by
  cases v with
  | jstr s => exact ⟨s, rfl⟩
  | jnull => simp [strTooShort] at h
  | jbool b => simp [strTooShort] at h
  | jnum f => simp [strTooShort] at h
  | jarr l => simp [strTooShort] at h
  | jobj l => simp [strTooShort] at h

theorem tsBad_false_shape {v : JVal} (h : tsBad v = false) :
    ∃ s, v = .jstr s := by
  cases v with
  | jstr s => exact ⟨s, rfl⟩
  | jnull => simp [tsBad] at h
  | jbool b => simp [tsBad] at h
  | jnum f => simp [tsBad] at h
  | jarr l => simp [tsBad] at h
  | jobj l => simp [tsBad] at h

theorem typeNotAllowed_false_shape {v : JVal} (h : typeNotAllowed v = false) :
    ∃ s, v = .jstr s := by
  cases v with
  | jstr s => exact ⟨s, rfl⟩
  | jnull => simp [typeNotAllowed] at h
  | jbool b => simp [typeNotAllowed] at h
  | jnum f => simp [typeNotAllowed] at h
  | jarr l => simp [typeNotAllowed] at h
  | jobj l => simp [typeNotAllowed] at h

/-- On a validated item, `row_of_item` succeeds and copies the fields as the
dict literal writes them. -/
theorem row_of_item_ok (doc : JObj) (f : JObj)
    (hprov : pyGet doc "provider" ≠ .jnull)
    (hbr : pyGet doc "branch" ≠ .jnull)
    (hty : pyGet doc "type" ≠ .jnull)
    (hts : pyGet doc "timestamp" ≠ .jnull)
    (hprod : pyGet f "product" ≠ .jnull)
    (hunit : pyGet f "unit" ≠ .jnull)
    {p : PyFloat} (hp : pyFloat (pyGet f "price") = some p) :
    row_of_item doc (.jobj f) = .ok
      { provider := pyGet doc "provider", branch := pyGet doc "branch",
        doc_type := pyGet doc "type", ts := pyGet doc "timestamp",
        product := pyGet f "product", unit := pyGet f "unit",
        price := .jnum p,
        src_key := pyGet doc "src_key", etag := pyGet doc "etag" } := by
  have hpr : pyGet f "price" ≠ .jnull := by
    intro hh; rw [hh] at hp; simp [pyFloat] at hp
  have hex : pyFloatExc (pyGet f "price") = .ok p := by
    unfold pyFloatExc
    rw [hp]
  have hsub : ∀ k, pySubscript (.jobj f) k = pyIndex f k := fun _ => rfl
  have hbind : ∀ {α β : Type} (a : α) (g : α → Except PyErr β),
      ((Except.ok a : Except PyErr α) >>= g) = g a := fun _ _ => rfl
  unfold row_of_item
  simp only [hsub, pyIndex_of_pyGet hprov, pyIndex_of_pyGet hbr,
    pyIndex_of_pyGet hty, pyIndex_of_pyGet hts, pyIndex_of_pyGet hprod,
    pyIndex_of_pyGet hunit, pyIndex_of_pyGet hpr, hex, hbind]
  rfl

theorem itemOk_unpack {it : JVal} (h : itemOk it = true) :
    ∃ f, it = .jobj f
      ∧ strTooShort (pyGet f "product") = false
      ∧ strTooShort (pyGet f "unit") = false
      ∧ ∃ p, pyFloat (pyGet f "price") = some p ∧ p.isNeg = false := by
  cases it with
  | jobj f =>
    refine ⟨f, rfl, ?_⟩
    simp only [itemOk, Bool.and_eq_true, Bool.not_eq_true'] at h
    refine ⟨h.1.1, h.1.2, ?_⟩
    cases hp : pyFloat (pyGet f "price") with
    | some p =>
      rw [hp] at h
      exact ⟨p, rfl, by simpa using h.2⟩
    | none => rw [hp] at h; simp at h
  | jnull => simp [itemOk] at h
  | jbool b => simp [itemOk] at h
  | jnum f => simp [itemOk] at h
  | jstr s => simp [itemOk] at h
  | jarr l => simp [itemOk] at h

/-- **C7.** On every document that passes validation, `doc_to_rows`
succeeds with exactly one row per item, in order; each row copies
`provider`, `branch`, `type` (as `doc_type`) and `timestamp` (as `ts`) from
the document, `product`, `unit` and the float of `price` from its item, and
the document-wide `src_key`/`etag` onto every row. -/
theorem claim_C7 (doc : JObj) (h : validate_doc doc = .ok ()) :
    ∃ xs rows, pyGet doc "items" = .jarr xs
      ∧ doc_to_rows doc = .ok rows
      ∧ rows.length = xs.length
      ∧ ∀ i (hi : i < xs.length), ∃ f p, ∃ hri : i < rows.length,
          xs.get ⟨i, hi⟩ = .jobj f
          ∧ pyFloat (pyGet f "price") = some p
          ∧ rows.get ⟨i, hri⟩ =
            { provider := pyGet doc "provider", branch := pyGet doc "branch",
              doc_type := pyGet doc "type", ts := pyGet doc "timestamp",
              product := pyGet f "product", unit := pyGet f "unit",
              price := .jnum p,
              src_key := pyGet doc "src_key", etag := pyGet doc "etag" } := by
  obtain ⟨hprov, hbr, hty, hts, xs, hxs, -, hall⟩ := (validate_ok_iff doc).1 h
  obtain ⟨sp, hsp⟩ := strTooShort_false_shape hprov
  obtain ⟨sb, hsb⟩ := strTooShort_false_shape hbr
  obtain ⟨st, hst⟩ := typeNotAllowed_false_shape hty
  obtain ⟨sts, hsts⟩ := tsBad_false_shape hts
  have hprov' : pyGet doc "provider" ≠ .jnull := by rw [hsp]; simp
  have hbr' : pyGet doc "branch" ≠ .jnull := by rw [hsb]; simp
  have hty' : pyGet doc "type" ≠ .jnull := by rw [hst]; simp
  have hts' : pyGet doc "timestamp" ≠ .jnull := by rw [hsts]; simp
  have hitems' : pyGet doc "items" ≠ .jnull := by rw [hxs]; simp
  have hrowfn : ∀ it ∈ xs, ∃ b, row_of_item doc it = .ok b := by
    intro it hit
    obtain ⟨f, rfl, hfp, hfu, p, hp, -⟩ := itemOk_unpack (hall it hit)
    obtain ⟨s1, hs1⟩ := strTooShort_false_shape hfp
    obtain ⟨s2, hs2⟩ := strTooShort_false_shape hfu
    exact ⟨_, row_of_item_ok doc f hprov' hbr' hty' hts'
      (by rw [hs1]; simp) (by rw [hs2]; simp) hp⟩
  obtain ⟨rows, hrows, hlen, hget⟩ := mapM_ok_of_forall (row_of_item doc) xs hrowfn
  refine ⟨xs, rows, hxs, ?_, hlen, ?_⟩
  · unfold doc_to_rows
    rw [pyIndex_of_pyGet hitems', hxs]
    show (do
      let its ← pyIter (.jarr xs)
      its.mapM (row_of_item doc) : Except PyErr (List Row)) = .ok rows
    rw [show pyIter (JVal.jarr xs) = .ok xs from rfl]
    show xs.mapM (row_of_item doc) = .ok rows
    exact hrows
  · intro i hi
    have hmem : xs.get ⟨i, hi⟩ ∈ xs := List.get_mem xs i hi
    obtain ⟨f, hf, hfp, hfu, p, hp, -⟩ := itemOk_unpack (hall _ hmem)
    obtain ⟨s1, hs1⟩ := strTooShort_false_shape hfp
    obtain ⟨s2, hs2⟩ := strTooShort_false_shape hfu
    obtain ⟨hri, hfi⟩ := hget i hi
    rw [hf] at hfi
    rw [row_of_item_ok doc f hprov' hbr' hty' hts'
      (by rw [hs1]; simp) (by rw [hs2]; simp) hp] at hfi
    injection hfi with h1
    exact ⟨f, p, hri, hf, hp, h1.symm⟩

/-- A concrete fully valid document exercising C7. -/
def validDocC7 : JObj :=
  [("provider", .jstr "p"), ("branch", .jstr "b"),
   ("type", .jstr "pricesFull"),
   ("timestamp", .jstr "2024-01-05T10:00:00Z"),
   ("items", .jarr
     [.jobj [("product", .jstr "x"), ("unit", .jstr "kg"),
             ("price", .jnum (.finite 2 0))]])]

/-- C7 instantiated at a concrete validated document. -/
theorem claim_C7_witness :
    ∃ xs rows, pyGet validDocC7 "items" = .jarr xs
      ∧ doc_to_rows validDocC7 = .ok rows
      ∧ rows.length = xs.length
      ∧ ∀ i (hi : i < xs.length), ∃ f p, ∃ hri : i < rows.length,
          xs.get ⟨i, hi⟩ = .jobj f
          ∧ pyFloat (pyGet f "price") = some p
          ∧ rows.get ⟨i, hri⟩ =
            { provider := pyGet validDocC7 "provider",
              branch := pyGet validDocC7 "branch",
              doc_type := pyGet validDocC7 "type",
              ts := pyGet validDocC7 "timestamp",
              product := pyGet f "product", unit := pyGet f "unit",
              price := .jnum p,
              src_key := pyGet validDocC7 "src_key",
              etag := pyGet validDocC7 "etag" } :=
  claim_C7 validDocC7 (by rfl)

/-! ## The canonical timestamp ends in `Z` (towards C5, C8) -/

theorem replaceAllAux_nil (f : Nat) (pat rep : List Char) :
    replaceAllAux f [] pat rep = [] := by
  cases f <;> rfl

theorem replaceAllAux_cons (f : Nat) (c : Char) (cs pat rep : List Char) :
    replaceAllAux (f + 1) (c :: cs) pat rep =
      if pat ≠ [] ∧ pat.isPrefixOf (c :: cs) then
        rep ++ replaceAllAux f ((c :: cs).drop pat.length) pat rep
      else c :: replaceAllAux f cs pat rep := rfl

/-- Replacing the final `+00:00` of a `+`-free body yields `body ++ "Z"`. -/
theorem replaceAllAux_plus_suffix :
    ∀ (body : List Char) (fuel : Nat), body.length + 7 ≤ fuel →
      (∀ c ∈ body, c ≠ '+') →
      replaceAllAux fuel (body ++ "+00:00".data) "+00:00".data ['Z']
        = body ++ ['Z'] := by
  intro body
  induction body with
  | nil =>
    intro fuel hf _
    match fuel, hf with
    | f + 7, _ =>
      show replaceAllAux (f + 6 + 1) ('+' :: "00:00".data) "+00:00".data ['Z']
        = ['Z']
      rw [replaceAllAux_cons]
      rw [if_pos ⟨by decide, by decide⟩]
      show ['Z'] ++ replaceAllAux (f + 6) [] "+00:00".data ['Z'] = ['Z']
      rw [replaceAllAux_nil]
      rfl
  | cons c rest ih =>
    intro fuel hf hplus
    have hc : c ≠ '+' := hplus c (by simp)
    match fuel, hf with
    | f + 1, hf =>
      show replaceAllAux (f + 1) (c :: (rest ++ "+00:00".data)) _ _ = _
      rw [replaceAllAux_cons]
      rw [if_neg ?hneg]
      case hneg =>
        rintro ⟨-, hpre⟩
        have h2 : (('+' :: "00:00".data).isPrefixOf
            (c :: (rest ++ "+00:00".data))) = true := hpre
        rw [show (('+' :: "00:00".data).isPrefixOf
            (c :: (rest ++ "+00:00".data)))
          = ('+' == c && ("00:00".data).isPrefixOf (rest ++ "+00:00".data))
          from rfl, Bool.and_eq_true] at h2
        exact hc ((beq_iff_eq.mp h2.1).symm)
      rw [ih f (by simpa using hf) (fun x hx => hplus x (by simp [hx]))]
      rfl

/-- Every character emitted by `natDigitsAux` is a decimal digit. -/
theorem natDigitsAux_digits :
    ∀ (fuel n : Nat), ∀ c ∈ natDigitsAux fuel n, c.isDigit = true := by
  intro fuel
  induction fuel with
  | zero => intro n c hc; simp [natDigitsAux] at hc
  | succ f ih =>
    intro n c hc
    simp only [natDigitsAux] at hc
    split at hc
    · next h =>
      simp only [List.mem_singleton] at hc
      subst hc
      unfold digitChar
      interval_cases n <;> decide
    · next h =>
      rcases List.mem_append.1 hc with hm | hm
      · exact ih (n / 10) c hm
      · simp only [List.mem_singleton] at hm
        subst hm
        unfold digitChar
        have : n % 10 < 10 := Nat.mod_lt n (by omega)
        interval_cases hh : (n % 10) <;> decide

theorem natDigits_digits (n : Nat) : ∀ c ∈ natDigits n, c.isDigit = true :=
  natDigitsAux_digits (n + 1) n

theorem padNum_digits (w n : Nat) : ∀ c ∈ padNum w n, c.isDigit = true := by
  intro c hc
  unfold padNum at hc
  rcases List.mem_append.1 hc with hm | hm
  · rw [List.eq_of_mem_replicate hm]; decide
  · exact natDigits_digits n c hm

/-- The part of `isoformatUTC` before the UTC offset. -/
def isoBody (dt : PyDateTime) : List Char :=
  padNum 4 dt.year ++ '-' :: padNum 2 dt.month ++ '-' :: padNum 2 dt.day
    ++ 'T' :: padNum 2 dt.hour ++ ':' :: padNum 2 dt.minute
    ++ ':' :: padNum 2 dt.second
    ++ (if dt.micro = 0 then [] else '.' :: padNum 6 dt.micro)

theorem isoformatUTC_split (dt : PyDateTime) :
    isoformatUTC dt = String.mk (isoBody dt ++ "+00:00".data) := by
  unfold isoformatUTC isoBody
  simp [List.append_assoc]

theorem isoBody_no_plus (dt : PyDateTime) : ∀ c ∈ isoBody dt, c ≠ '+' := by
  intro c hc
  have hdig : ∀ x : Char, x.isDigit = true → x ≠ '+' := by
    intro x hx hplus
    subst hplus
    simp [Char.isDigit] at hx
  unfold isoBody at hc
  simp only [List.mem_append, List.mem_cons] at hc
  rcases hc with ((((((h | h) | h) | h) | h) | h) | h)
  · exact hdig c (padNum_digits 4 dt.year c h)
  · rcases h with rfl | h
    · decide
    · exact hdig c (padNum_digits 2 dt.month c h)
  · rcases h with rfl | h
    · decide
    · exact hdig c (padNum_digits 2 dt.day c h)
  · rcases h with rfl | h
    · decide
    · exact hdig c (padNum_digits 2 dt.hour c h)
  · rcases h with rfl | h
    · decide
    · exact hdig c (padNum_digits 2 dt.minute c h)
  · rcases h with rfl | h
    · decide
    · exact hdig c (padNum_digits 2 dt.second c h)
  · split at h
    · simp at h
    · rcases List.mem_cons.1 h with rfl | h
      · decide
      · exact hdig c (padNum_digits 6 dt.micro c h)

theorem pyEndsWith_appendZ (l : List Char) :
    pyEndsWith (String.mk (l ++ ['Z'])) "Z" = true := by
  unfold pyEndsWith
  simp [List.isPrefixOf]

/-- Whatever `_to_utc_z` returns ends in a literal `Z`. -/
theorem _to_utc_z_endsZ (off : Int) (s out : String)
    (h : _to_utc_z off s = .ok out) :
    ∃ body, out = String.mk (body ++ ['Z']) ∧ pyEndsWith out "Z" = true := by
  unfold _to_utc_z at h
  cases hp : (if pyEndsWith (pyStrip s) "Z" then
      fromisoformat (pyReplace (pyStrip s) "Z" "+00:00")
    else fromisoformat (pyStrip s)) with
  | none => rw [hp] at h; exact absurd h (by simp)
  | some dt =>
    rw [hp] at h
    simp only at h
    cases ha : astimezoneUTC off dt with
    | none => rw [ha] at h; exact absurd h (by simp)
    | some u =>
      rw [ha] at h
      simp only [Except.ok.injEq] at h
      refine ⟨isoBody u, ?_, ?_⟩
      · rw [← h]
        unfold pyReplace
        rw [isoformatUTC_split]
        show String.mk (replaceAll (isoBody u ++ "+00:00".data) "+00:00".data ['Z'])
          = _
        unfold replaceAll
        rw [replaceAllAux_plus_suffix (isoBody u) _
          (by simp [List.length_append]) (isoBody_no_plus u)]
      · rw [← h]
        unfold pyReplace
        rw [isoformatUTC_split]
        show pyEndsWith
          (String.mk (replaceAll (isoBody u ++ "+00:00".data) "+00:00".data ['Z'])) "Z"
          = true
        unfold replaceAll
        rw [replaceAllAux_plus_suffix (isoBody u) _
          (by simp [List.length_append]) (isoBody_no_plus u)]
        exact pyEndsWith_appendZ (isoBody u)

/-! ## Properties of the normalizer (towards C5, C8) -/

theorem exceptBind_ok {α β : Type} (a : α) (g : α → Except PyErr β) :
    ((Except.ok a : Except PyErr α) >>= g) = g a := rfl

theorem exceptBind_err {α β : Type} (e : PyErr) (g : α → Except PyErr β) :
    ((Except.error e : Except PyErr α) >>= g) = .error e := rfl

/-- On a message whose timestamp converts and whose `items` iterate to
dicts, `normalize_message` succeeds and returns the canonical dict with the
converted timestamp. -/
theorem normalize_message_ok (cfg : NormCfg) (now : PyDateTime) (fields : JObj)
    {ts : String}
    (hts : _to_utc_z cfg.localOffsetMin (norm_raw_ts now fields) = .ok ts)
    {xs : List JVal}
    (hxs : pyGetD fields "items" (.jarr []) = .jarr xs)
    (hobjs : ∀ it ∈ xs, ∃ g, it = .jobj g) :
    ∃ items, normalize_message cfg now (.jobj fields) = .ok
      [("provider", .jstr (pyLower (_norm_text (pyGet fields "provider")))),
       ("branch", .jstr (if _norm_text (pyGet fields "branch") = ""
          then DEFAULT_BRANCH cfg else _norm_text (pyGet fields "branch"))),
       ("type", .jstr (_canon_type (_norm_text (pyGet fields "type")))),
       ("timestamp", .jstr ts),
       ("items", .jarr items),
       ("src_key", .jstr (_norm_text (pyGet fields "src_key"))),
       ("etag", .jstr (_norm_text (pyGet fields "etag")))] := by
  have hmap : ∀ it ∈ xs, ∃ b, normItem cfg it = .ok b := by
    intro it hit
    obtain ⟨g, rfl⟩ := hobjs it hit
    exact ⟨_, rfl⟩
  obtain ⟨items, hitems, -, -⟩ := mapM_ok_of_forall (normItem cfg) xs hmap
  refine ⟨items, ?_⟩
  have hred : normalize_message cfg now (.jobj fields) = (do
      let ts ← _to_utc_z cfg.localOffsetMin (norm_raw_ts now fields)
      let itemsIter ← pyIter (pyGetD fields "items" (.jarr []))
      let items ← itemsIter.mapM (normItem cfg)
      Except.ok
        [("provider", .jstr (pyLower (_norm_text (pyGet fields "provider")))),
         ("branch", .jstr (if _norm_text (pyGet fields "branch") = ""
            then DEFAULT_BRANCH cfg else _norm_text (pyGet fields "branch"))),
         ("type", .jstr (_canon_type (_norm_text (pyGet fields "type")))),
         ("timestamp", .jstr ts),
         ("items", .jarr items),
         ("src_key", .jstr (_norm_text (pyGet fields "src_key"))),
         ("etag", .jstr (_norm_text (pyGet fields "etag")))]) := rfl
  rw [hred, hts, exceptBind_ok, hxs]
  rw [show pyIter (JVal.jarr xs) = .ok xs from rfl, exceptBind_ok]
  rw [hitems, exceptBind_ok]

/-- On an offset-aware datetime, `astimezone(timezone.utc)` ignores the
process-local timezone. -/
theorem astimezoneUTC_aware (off off' : Int) (dt : PyDateTime)
    (h : dt.tzOffsetMin.isSome = true) :
    astimezoneUTC off dt = astimezoneUTC off' dt := by
  unfold astimezoneUTC
  cases hz : dt.tzOffsetMin with
  | some z => rfl
  | none => rw [hz] at h; simp at h

/-- The parsed form of the example timestamp `2024-01-05T10:00:00+00:00`. -/
def dtExample : PyDateTime :=
  { year := 2024, month := 1, day := 5, hour := 10, minute := 0, second := 0,
    micro := 0, tzOffsetMin := some 0 }

/-- When the parsed timestamp is offset-aware, `_to_utc_z` is independent
of the process-local timezone. -/
theorem _to_utc_z_aware_indep (off : Int) (s : String)
    (h : ∀ dt, (if pyEndsWith (pyStrip s) "Z" = true then
        fromisoformat (pyReplace (pyStrip s) "Z" "+00:00")
      else fromisoformat (pyStrip s)) = some dt →
        dt.tzOffsetMin.isSome = true) :
    _to_utc_z off s = _to_utc_z 0 s := by
  unfold _to_utc_z
  cases hp : (if pyEndsWith (pyStrip s) "Z" = true then
      fromisoformat (pyReplace (pyStrip s) "Z" "+00:00")
    else fromisoformat (pyStrip s)) with
  | none => rfl
  | some dt =>
    simp only
    rw [astimezoneUTC_aware off 0 dt (h dt hp)]

/-- The claim's round-trip example, under every local timezone. -/
theorem to_utc_z_example (off : Int) :
    _to_utc_z off "2024-01-05T10:00:00+00:00" = .ok "2024-01-05T10:00:00Z" := by
  have hk : (if pyEndsWith (pyStrip "2024-01-05T10:00:00+00:00") "Z" = true then
      fromisoformat (pyReplace (pyStrip "2024-01-05T10:00:00+00:00") "Z" "+00:00")
    else fromisoformat (pyStrip "2024-01-05T10:00:00+00:00"))
      = some dtExample := rfl
  have hind := _to_utc_z_aware_indep off "2024-01-05T10:00:00+00:00"
    (fun dt hdt => by
      rw [hk] at hdt
      injection hdt with h1
      rw [← h1]
      rfl)
  rw [hind]
  exact rfl

/-- **C5 (amended).**  `normalize_message` returns a canonical document
whose timestamp is re-rendered in UTC with a trailing `Z` whenever the
timestamp is absent or parses and converts (the `+00:00` suffix of the
re-rendering is rewritten to `Z`), and the `items` value is absent or a
list of objects; the round-trip example `2024-01-05T10:00:00+00:00 ↦
2024-01-05T10:00:00Z` holds under every local timezone.  (The claim's
`fails only on a malformed timestamp` is refuted by the counterexample: a
non-dict element of `items` raises `AttributeError` with a perfectly
parseable timestamp; an out-of-range UTC conversion near year 1/9999 also
raises.) -/
theorem claim_C5 (cfg : NormCfg) (now : PyDateTime) (fields : JObj)
    (hts : ∃ ts, _to_utc_z cfg.localOffsetMin (norm_raw_ts now fields) = .ok ts)
    (hitems : ∃ xs, pyGetD fields "items" (.jarr []) = .jarr xs
      ∧ ∀ it ∈ xs, ∃ g, it = .jobj g) :
    (∃ out ts, normalize_message cfg now (.jobj fields) = .ok out
      ∧ pyGet out "timestamp" = .jstr ts
      ∧ pyEndsWith ts "Z" = true)
    ∧ (∀ off, _to_utc_z off "2024-01-05T10:00:00+00:00"
        = .ok "2024-01-05T10:00:00Z") := by
  obtain ⟨ts, hts⟩ := hts
  obtain ⟨xs, hxs, hobjs⟩ := hitems
  obtain ⟨items, hout⟩ := normalize_message_ok cfg now fields hts hxs hobjs
  refine ⟨⟨_, ts, hout, ?_, ?_⟩, to_utc_z_example⟩
  · rfl
  · obtain ⟨body, -, hz⟩ := _to_utc_z_endsZ cfg.localOffsetMin _ ts hts
    exact hz

/-- The clock instant used in the C5 witness and counterexample. -/
def nowC5 : PyDateTime :=
  { year := 2025, month := 6, day := 1, hour := 12, minute := 0, second := 0,
    micro := 0, tzOffsetMin := some 0 }

/-- C5 instantiated at a concrete message carrying an offset timestamp. -/
theorem claim_C5_witness :
    (∃ out ts,
      normalize_message {} nowC5
          (.jobj [("timestamp", .jstr "2024-01-05T10:00:00+00:00")]) = .ok out
      ∧ pyGet out "timestamp" = .jstr ts
      ∧ pyEndsWith ts "Z" = true)
    ∧ (∀ off, _to_utc_z off "2024-01-05T10:00:00+00:00"
        = .ok "2024-01-05T10:00:00Z") :=
  claim_C5 {} nowC5 [("timestamp", .jstr "2024-01-05T10:00:00+00:00")]
    ⟨"2024-01-05T10:00:00Z", rfl⟩ ⟨[], rfl, by simp⟩

/-- **C5 — counterexample to the claim as stated.**  With a perfectly
well-formed timestamp, a numeric element inside `items` makes
`normalize_message` raise (`it.get` on a non-dict): normalization does not
fail *only* on malformed timestamps. -/
theorem claim_C5_counterexample :
    normalize_message {} nowC5
        (.jobj [("timestamp", .jstr "2024-01-05T10:00:00Z"),
                ("items", .jarr [.jnum (.finite 5 0)])])
      = .error (.attributeError "item has no attribute get")
    ∧ _to_utc_z 0 "2024-01-05T10:00:00Z" = .ok "2024-01-05T10:00:00Z" :=
  ⟨rfl, rfl⟩

/-- Inversion of a successful normalization: the output is the canonical
seven-field dict built from the input. -/
theorem normalize_message_ok_inv (cfg : NormCfg) (now : PyDateTime)
    (fields : JObj) (out : JObj)
    (hnorm : normalize_message cfg now (.jobj fields) = .ok out) :
    ∃ ts items,
      out =
        [("provider", .jstr (pyLower (_norm_text (pyGet fields "provider")))),
         ("branch", .jstr (if _norm_text (pyGet fields "branch") = ""
            then DEFAULT_BRANCH cfg else _norm_text (pyGet fields "branch"))),
         ("type", .jstr (_canon_type (_norm_text (pyGet fields "type")))),
         ("timestamp", .jstr ts),
         ("items", .jarr items),
         ("src_key", .jstr (_norm_text (pyGet fields "src_key"))),
         ("etag", .jstr (_norm_text (pyGet fields "etag")))] := by
  have hred : normalize_message cfg now (.jobj fields) = (do
      let ts ← _to_utc_z cfg.localOffsetMin (norm_raw_ts now fields)
      let itemsIter ← pyIter (pyGetD fields "items" (.jarr []))
      let items ← itemsIter.mapM (normItem cfg)
      Except.ok
        [("provider", .jstr (pyLower (_norm_text (pyGet fields "provider")))),
         ("branch", .jstr (if _norm_text (pyGet fields "branch") = ""
            then DEFAULT_BRANCH cfg else _norm_text (pyGet fields "branch"))),
         ("type", .jstr (_canon_type (_norm_text (pyGet fields "type")))),
         ("timestamp", .jstr ts),
         ("items", .jarr items),
         ("src_key", .jstr (_norm_text (pyGet fields "src_key"))),
         ("etag", .jstr (_norm_text (pyGet fields "etag")))]) := rfl
  rw [hred] at hnorm
  cases h1 : _to_utc_z cfg.localOffsetMin (norm_raw_ts now fields) with
  | error e => rw [h1, exceptBind_err] at hnorm; exact absurd hnorm (by simp)
  | ok ts =>
    rw [h1, exceptBind_ok] at hnorm
    cases h2 : pyIter (pyGetD fields "items" (.jarr [])) with
    | error e => rw [h2, exceptBind_err] at hnorm; exact absurd hnorm (by simp)
    | ok iter =>
      rw [h2, exceptBind_ok] at hnorm
      cases h3 : iter.mapM (normItem cfg) with
      | error e => rw [h3, exceptBind_err] at hnorm; exact absurd hnorm (by simp)
      | ok items =>
        rw [h3, exceptBind_ok] at hnorm
        simp only [Except.ok.injEq] at hnorm
        exact ⟨ts, items, hnorm.symm⟩

/-- **C8.**  When the raw `branch` is absent, empty, or whitespace-only,
every successful normalization sets `branch` to the configured default
branch string `DEFAULT_BRANCH` (the stripped `DEFAULT_BRANCH` env value),
and — as long as that configured default is not itself blank — the result
satisfies the validator's branch rule. -/
theorem claim_C8 (cfg : NormCfg) (now : PyDateTime) (fields : JObj)
    (hbranch : pyGet fields "branch" = .jnull
      ∨ ∃ s, pyGet fields "branch" = .jstr s ∧ pyStrip s = "")
    (out : JObj)
    (hnorm : normalize_message cfg now (.jobj fields) = .ok out) :
    pyGet out "branch" = .jstr (DEFAULT_BRANCH cfg)
    ∧ (pyStrip (DEFAULT_BRANCH cfg) ≠ "" →
        strTooShort (pyGet out "branch") = false) := by
  have hb : _norm_text (pyGet fields "branch") = "" := by
    rcases hbranch with h | ⟨s, hs, hstrip⟩
    · rw [h]; rfl
    · rw [hs]
      show pyStrip s = ""
      exact hstrip
  obtain ⟨ts, items, hout⟩ := normalize_message_ok_inv cfg now fields out hnorm
  subst hout
  rw [hb]
  constructor
  · rfl
  · intro hne
    show strTooShort (.jstr (DEFAULT_BRANCH cfg)) = false
    unfold strTooShort
    simp only [decide_eq_false_iff_not, not_lt]
    have : pyStrip (DEFAULT_BRANCH cfg) ≠ "" := hne
    have hlen : (pyStrip (DEFAULT_BRANCH cfg)).length ≠ 0 := by
      intro h0
      exact this (String.ext (List.length_eq_zero.1 (by simpa using h0)))
    omega

/-- The concrete canonical output used by the C8 witness. -/
def c8out : JObj :=
  [("provider", .jstr ""), ("branch", .jstr "default"),
   ("type", .jstr "pricesFull"),
   ("timestamp", .jstr "2024-01-05T10:00:00Z"),
   ("items", .jarr []), ("src_key", .jstr ""), ("etag", .jstr "")]

/-- C8 instantiated: a message with no `branch` normalizes to the default
branch and passes the branch rule. -/
theorem claim_C8_witness :
    pyGet c8out "branch" = .jstr (DEFAULT_BRANCH {})
    ∧ (pyStrip (DEFAULT_BRANCH {}) ≠ "" →
        strTooShort (pyGet c8out "branch") = false) :=
  claim_C8 {} nowC5 [("timestamp", .jstr "2024-01-05T10:00:00Z")]
    (Or.inl rfl) c8out rfl

/-! ## Decimal rendering round-trips through the JSON number grammar
(towards C9) -/

theorem digitChar_isDigit {d : Nat} (h : d < 10) :
    (digitChar d).isDigit = true := by
  unfold digitChar
  interval_cases d <;> decide

theorem digitChar_toNat {d : Nat} (h : d < 10) :
    (digitChar d).toNat = 48 + d := by
  unfold digitChar
  interval_cases d <;> decide

theorem digitChar_ne_zero {d : Nat} (h : d < 10) (h0 : d ≠ 0) :
    digitChar d ≠ '0' := by
  unfold digitChar
  interval_cases d <;> simp_all <;> decide

theorem natDigitsAux_ne_nil {fuel n : Nat} (h : n < fuel) :
    natDigitsAux fuel n ≠ [] := by
  induction fuel generalizing n with
  | zero => omega
  | succ f ih =>
    unfold natDigitsAux
    split
    · simp
    · simp

theorem natDigitsAux_head {fuel n : Nat} (h : n < fuel) (h0 : n ≠ 0) :
    ∀ c, (natDigitsAux fuel n).head? = some c → c ≠ '0' := by
  induction fuel generalizing n with
  | zero => omega
  | succ f ih =>
    intro c hc
    unfold natDigitsAux at hc
    split at hc
    · next hlt =>
      simp only [List.head?_cons, Option.some.injEq] at hc
      subst hc
      exact digitChar_ne_zero hlt h0
    · next hge =>
      have hne : natDigitsAux f (n / 10) ≠ [] := by
        apply natDigitsAux_ne_nil
        have h1 : n / 10 < n := Nat.div_lt_self (by omega) (by omega)
        omega
      rw [List.head?_append_of_ne_nil _ hne] at hc
      have h1 : n / 10 < n := Nat.div_lt_self (by omega) (by omega)
      have h2 : n / 10 ≠ 0 := by
        intro hz
        have := Nat.div_eq_zero_iff (by omega : 0 < 10) |>.1 hz
        omega
      exact ih (by omega) h2 c hc

theorem digitsToNat_cons (c : Char) (ds : List Char) :
    digitsToNat (c :: ds) =
      digitsToNat ds + (c.toNat - 48) * 10 ^ ds.length := by
  show List.foldl _ _ (c :: ds) = _
  have hgen : ∀ (l : List Char) (a : Nat),
      List.foldl (fun a c => a * 10 + (c.toNat - 48)) a l
        = a * 10 ^ l.length + List.foldl (fun a c => a * 10 + (c.toNat - 48)) 0 l := by
    intro l
    induction l with
    | nil => intro a; simp
    | cons x xs ih =>
      intro a
      simp only [List.foldl_cons, List.length_cons]
      rw [ih (a * 10 + (x.toNat - 48)), ih (0 * 10 + (x.toNat - 48))]
      ring
  show List.foldl _ (0 * 10 + (c.toNat - 48)) ds = _
  rw [hgen ds (0 * 10 + (c.toNat - 48))]
  show (0 * 10 + (c.toNat - 48)) * 10 ^ ds.length + digitsToNat ds
    = digitsToNat ds + (c.toNat - 48) * 10 ^ ds.length
  ring

theorem digitsToNat_replicate_zero (j : Nat) (ds : List Char) :
    digitsToNat (List.replicate j '0' ++ ds) = digitsToNat ds := by
  induction j with
  | zero => rfl
  | succ i ih =>
    rw [List.replicate_succ, List.cons_append, digitsToNat_cons, ih]
    simp

theorem digitsToNat_append_digit (ds : List Char) (c : Char) :
    digitsToNat (ds ++ [c]) = digitsToNat ds * 10 + (c.toNat - 48) := by
  unfold digitsToNat
  rw [List.foldl_append]
  rfl

theorem digitsToNat_natDigitsAux {fuel n : Nat} (h : n < fuel) :
    digitsToNat (natDigitsAux fuel n) = n := by
  induction fuel generalizing n with
  | zero => omega
  | succ f ih =>
    unfold natDigitsAux
    split
    · next hlt =>
      show digitsToNat [digitChar n] = n
      rw [show [digitChar n] = [] ++ [digitChar n] from rfl,
        digitsToNat_append_digit]
      rw [digitChar_toNat hlt]
      show 0 * 10 + (48 + n - 48) = n
      omega
    · next hge =>
      rw [digitsToNat_append_digit]
      have h1 : n / 10 < n := Nat.div_lt_self (by omega) (by omega)
      rw [ih (by omega)]
      rw [digitChar_toNat (by omega : n % 10 < 10)]
      have := Nat.div_add_mod n 10
      omega

theorem natDigits_ne_nil (n : Nat) : natDigits n ≠ [] :=
  natDigitsAux_ne_nil (by omega)

theorem natDigits_digit_head (n : Nat) (h0 : n ≠ 0) :
    ∀ c, (natDigits n).head? = some c → c ≠ '0' :=
  natDigitsAux_head (by omega) h0

theorem digitsToNat_natDigits (n : Nat) : digitsToNat (natDigits n) = n :=
  digitsToNat_natDigitsAux (by omega)

theorem takeWhile_append_boundary (p : Char → Bool) :
    ∀ (ds rest : List Char), (∀ c ∈ ds, p c = true) →
      (∀ c, rest.head? = some c → p c = false) →
      (ds ++ rest).takeWhile p = ds ∧ (ds ++ rest).dropWhile p = rest := by
  intro ds
  induction ds with
  | nil =>
    intro rest _ hrest
    cases rest with
    | nil => exact ⟨rfl, rfl⟩
    | cons c t =>
      have := hrest c rfl
      constructor
      · show List.takeWhile p (c :: t) = []
        simp [List.takeWhile_cons, this]
      · show List.dropWhile p (c :: t) = c :: t
        simp [List.dropWhile_cons, this]
  | cons d ds ih =>
    intro rest hds hrest
    have hd : p d = true := hds d (by simp)
    obtain ⟨h1, h2⟩ := ih rest (fun c hc => hds c (by simp [hc])) hrest
    constructor
    · show List.takeWhile p (d :: (ds ++ rest)) = d :: ds
      simp [List.takeWhile_cons, hd, h1]
    · show List.dropWhile p (d :: (ds ++ rest)) = rest
      simp [List.dropWhile_cons, hd, h2]

/-- A character list that cannot extend a JSON number match: empty, or
starting with none of digit, point, `e`, `E`. -/
def numBoundary : List Char → Bool
  | [] => true
  | c :: _ => !(c.isDigit || c = '.' || c = 'e' || c = 'E')

theorem numBoundary_head {rest : List Char} (h : numBoundary rest = true) :
    ∀ c, rest.head? = some c →
      c.isDigit = false ∧ c ≠ '.' ∧ c ≠ 'e' ∧ c ≠ 'E' := by
  intro c hc
  cases rest with
  | nil => simp at hc
  | cons x t =>
    simp only [List.head?_cons, Option.some.injEq] at hc
    subst hc
    simp only [numBoundary, Bool.not_eq_true', Bool.or_eq_false_iff,
      decide_eq_false_iff_not] at h
    exact ⟨h.1.1.1, h.1.1.2, h.1.2, h.2⟩

theorem splitFrac_boundary {r : List Char} (h : numBoundary r = true) :
    splitFrac r = ([], r) := by
  unfold splitFrac
  split
  · rename_i d rest'
    simp [numBoundary] at h
  · rfl

theorem splitExp_boundary {r : List Char} (h : numBoundary r = true) :
    splitExp r = (0, r) := by
  unfold splitExp
  split
  · rename_i e rest'
    obtain ⟨_, _, he, hE⟩ := numBoundary_head h e rfl
    rw [if_neg (by simp [he, hE])]
  · rfl

/-- The digit list `renderCore n e` shows when `e > 0`, before the point is
inserted. -/
def renderPosFull (n e : Nat) : List Char :=
  List.replicate (e + 1 - (natDigits n).length) '0' ++ natDigits n

/-- Where `renderCore` puts the point when `e > 0`. -/
def renderPosK (n e : Nat) : Nat := (renderPosFull n e).length - e

theorem renderCore_pos (n e : Nat) (he : e ≠ 0) :
    renderCore n e = (renderPosFull n e).take (renderPosK n e)
      ++ '.' :: (renderPosFull n e).drop (renderPosK n e) := by
  simp only [renderCore, renderPosFull, renderPosK]
  rw [if_neg he]

theorem renderPosFull_digits (n e : Nat) :
    ∀ c ∈ renderPosFull n e, c.isDigit = true := by
  intro c hc
  rcases List.mem_append.1 hc with h | h
  · rw [List.eq_of_mem_replicate h]; decide
  · exact natDigits_digits n c h

theorem renderPosFull_length (n e : Nat) :
    (renderPosFull n e).length
      = (e + 1 - (natDigits n).length) + (natDigits n).length := by
  simp [renderPosFull]

theorem renderPosFull_val (n e : Nat) :
    digitsToNat (renderPosFull n e) = n := by
  unfold renderPosFull
  rw [digitsToNat_replicate_zero]
  exact digitsToNat_natDigits n

theorem renderPosK_pos (n e : Nat) : 1 ≤ renderPosK n e := by
  unfold renderPosK
  have h := renderPosFull_length n e
  omega

theorem renderPosK_le (n e : Nat) :
    renderPosK n e ≤ (renderPosFull n e).length := Nat.sub_le _ _

theorem renderPos_take_length (n e : Nat) :
    ((renderPosFull n e).take (renderPosK n e)).length = renderPosK n e := by
  rw [List.length_take]
  exact Nat.min_eq_left (renderPosK_le n e)

theorem renderPos_drop_length (n e : Nat) :
    ((renderPosFull n e).drop (renderPosK n e)).length = e := by
  rw [List.length_drop]
  unfold renderPosK
  have h := renderPosFull_length n e
  omega

theorem renderPos_take_head (n e : Nat) (hk : 1 < renderPosK n e) :
    ∀ c, ((renderPosFull n e).take (renderPosK n e)).head? = some c →
      c ≠ '0' := by
  have hlen := renderPosFull_length n e
  have hL : (natDigits n).length > e + 1 := by
    unfold renderPosK at hk
    omega
  have hrep : e + 1 - (natDigits n).length = 0 := by omega
  have hfull : renderPosFull n e = natDigits n := by
    unfold renderPosFull
    rw [hrep]
    rfl
  have hn : n ≠ 0 := by
    intro h0
    subst h0
    have h1 : natDigits 0 = ['0'] := rfl
    rw [h1] at hL
    simp at hL
  intro c hc
  apply natDigits_digit_head n hn
  rw [hfull] at hc
  obtain ⟨d, t, hdt⟩ := List.exists_cons_of_ne_nil (natDigits_ne_nil n)
  rw [hdt] at hc ⊢
  obtain ⟨k1, hk1⟩ : ∃ k1, renderPosK n e = k1 + 1 := by
    obtain ⟨k1, hk1⟩ := Nat.exists_eq_add_of_lt hk
    exact ⟨k1 + 1, by omega⟩
  rw [hk1] at hc
  simpa using hc

theorem parseJNumCore_renderCore (neg : Bool) (n e : Nat) (rest : List Char)
    (hrest : numBoundary rest = true) :
    parseJNumCore neg (renderCore n e ++ rest)
      = some (.finite (if neg then -(n : Int) else (n : Int)) e, rest) := by
  have hbd : ∀ c, rest.head? = some c → Char.isDigit c = false :=
    fun c hc => (numBoundary_head hrest c hc).1
  by_cases he : e = 0
  · subst he
    have hr0 : renderCore n 0 = natDigits n := rfl
    obtain ⟨c, t, hct⟩ := List.exists_cons_of_ne_nil (natDigits_ne_nil n)
    have hall : ∀ x ∈ c :: t, x.isDigit = true := by
      rw [← hct]; exact natDigits_digits n
    have hcd : c.isDigit = true := hall c (by simp)
    obtain ⟨htake, hdrop⟩ :=
      takeWhile_append_boundary Char.isDigit (c :: t) rest hall hbd
    simp only [List.cons_append] at htake hdrop
    have hn0 : digitsToNat (c :: t) = n := by
      rw [← hct]; exact digitsToNat_natDigits n
    have hadj : ¬((c :: t).head? = some '0' ∧ (c :: t).length > 1) := by
      rintro ⟨h0, h1⟩
      simp only [List.head?_cons, Option.some.injEq] at h0
      by_cases hn : n = 0
      · subst hn
        have h00 : (['0'] : List Char) = c :: t := hct
        injection h00 with hc0 ht0
        rw [← ht0] at h1
        simp at h1
      · exact natDigits_digit_head n hn c (by rw [hct]; rfl) h0
    rw [hr0, hct, List.cons_append]
    simp only [parseJNumCore]
    rw [if_neg (by simp [hcd])]
    rw [htake, hdrop, if_neg hadj]
    simp [splitFrac_boundary hrest, splitExp_boundary hrest, mkDecimal, hn0]
  · obtain ⟨c, t, hct⟩ : ∃ c t,
        (renderPosFull n e).take (renderPosK n e) = c :: t := by
      apply List.exists_cons_of_ne_nil
      have h1 := renderPos_take_length n e
      have h2 := renderPosK_pos n e
      intro hnil
      rw [hnil] at h1
      simp at h1
      omega
    obtain ⟨g, u, hgu⟩ : ∃ g u,
        (renderPosFull n e).drop (renderPosK n e) = g :: u := by
      apply List.exists_cons_of_ne_nil
      have h1 := renderPos_drop_length n e
      intro hnil
      rw [hnil] at h1
      simp at h1
      omega
    have htall : ∀ x ∈ c :: t, x.isDigit = true := by
      rw [← hct]
      intro x hx
      exact renderPosFull_digits n e x (List.take_subset _ _ hx)
    have hdall : ∀ x ∈ g :: u, x.isDigit = true := by
      rw [← hgu]
      intro x hx
      exact renderPosFull_digits n e x (List.drop_subset _ _ hx)
    have hcd : c.isDigit = true := htall c (by simp)
    have hgd : g.isDigit = true := hdall g (by simp)
    obtain ⟨htake1, hdrop1⟩ :=
      takeWhile_append_boundary Char.isDigit (c :: t) ('.' :: (g :: (u ++ rest)))
        htall (by
          intro x hx
          simp only [List.head?_cons, Option.some.injEq] at hx
          subst hx
          decide)
    obtain ⟨htake2, hdrop2⟩ :=
      takeWhile_append_boundary Char.isDigit (g :: u) rest hdall hbd
    simp only [List.cons_append] at htake1 hdrop1 htake2 hdrop2
    have hadj : ¬((c :: t).head? = some '0' ∧ (c :: t).length > 1) := by
      rintro ⟨h0, h1⟩
      simp only [List.head?_cons, Option.some.injEq] at h0
      have hklen : (c :: t).length = renderPosK n e := by
        rw [← hct]
        exact renderPos_take_length n e
      have hk2 : 1 < renderPosK n e := by omega
      exact renderPos_take_head n e hk2 c (by rw [hct]; rfl) h0
    have hval : digitsToNat ((c :: t) ++ (g :: u)) = n := by
      have h1 : (c :: t) ++ (g :: u) = renderPosFull n e := by
        rw [← hct, ← hgu]
        exact List.take_append_drop _ _
      rw [h1]
      exact renderPosFull_val n e
    have hlen : (g :: u).length = e := by
      rw [← hgu]
      exact renderPos_drop_length n e
    have hfr : splitFrac ('.' :: (g :: (u ++ rest))) = (g :: u, rest) := by
      show (if g.isDigit then ((g :: (u ++ rest)).takeWhile Char.isDigit,
          (g :: (u ++ rest)).dropWhile Char.isDigit)
        else ([], '.' :: (g :: (u ++ rest)))) = (g :: u, rest)
      rw [if_pos hgd, htake2, hdrop2]
    rw [renderCore_pos n e he, hct, hgu]
    simp only [List.cons_append, List.append_assoc, List.nil_append]
    simp only [parseJNumCore]
    rw [if_neg (by simp [hcd])]
    rw [htake1, hdrop1, if_neg hadj]
    have hepos : ¬(((g :: u).length : Int) ≤ 0) := by
      rw [hlen]
      omega
    simp [hfr, splitExp_boundary hrest, mkDecimal, hval, hlen,
      Nat.pos_of_ne_zero he]
    rw [if_neg he]
    simp only [List.cons_append] at hval
    rw [hval]

theorem renderCore_head_digit (n e : Nat) :
    ∃ c t, renderCore n e = c :: t ∧ c.isDigit = true := by
  by_cases he : e = 0
  · subst he
    obtain ⟨c, t, hct⟩ := List.exists_cons_of_ne_nil (natDigits_ne_nil n)
    refine ⟨c, t, hct, ?_⟩
    exact natDigits_digits n c (by rw [hct]; simp)
  · obtain ⟨c, t, hct⟩ : ∃ c t,
        (renderPosFull n e).take (renderPosK n e) = c :: t := by
      apply List.exists_cons_of_ne_nil
      have h1 := renderPos_take_length n e
      have h2 := renderPosK_pos n e
      intro hnil
      rw [hnil] at h1
      simp at h1
      omega
    refine ⟨c, t ++ '.' :: (renderPosFull n e).drop (renderPosK n e), ?_, ?_⟩
    · rw [renderCore_pos n e he, hct]
      simp
    · exact renderPosFull_digits n e c
        (List.take_subset _ _ (by rw [hct]; simp))

theorem parseJNum_renderFinite (m : Int) (e : Nat) (rest : List Char)
    (hrest : numBoundary rest = true) :
    parseJNum (renderFinite m e ++ rest) = some (.finite m e, rest) := by
  unfold renderFinite
  obtain ⟨c, t, hct, hcd⟩ := renderCore_head_digit m.natAbs e
  by_cases hm : m < 0
  · rw [if_pos hm]
    simp only [List.cons_append, List.nil_append]
    show parseJNumCore true (renderCore m.natAbs e ++ rest) = _
    rw [parseJNumCore_renderCore true m.natAbs e rest hrest]
    have h2 : -(m.natAbs : Int) = m := by omega
    show some (PyFloat.finite (-(m.natAbs : Int)) e, rest)
      = some (PyFloat.finite m e, rest)
    rw [h2]
  · rw [if_neg hm]
    simp only [List.nil_append]
    rw [hct, List.cons_append]
    have hstep : parseJNum (c :: (t ++ rest)) = parseJNumCore false (c :: (t ++ rest)) := by
      unfold parseJNum
      split
      · rename_i r heq
        injection heq with h1 h2
        rw [h1] at hcd
        simp at hcd
      · rfl
    rw [hstep, ← List.cons_append, ← hct,
      parseJNumCore_renderCore false m.natAbs e rest hrest]
    have : (m.natAbs : Int) = m := by omega
    simp [this]

/-! ## String escaping round-trips through the string-literal parse
(towards C9) -/

theorem parseHexDigit_hexDigitChar {d : Nat} (h : d < 16) :
    parseHexDigit (hexDigitChar d) = some d := by
  interval_cases d <;> decide

theorem hex4Val_hex4 {n : Nat} (h : n < 0x10000) :
    hex4Val (hexDigitChar (n / 4096 % 16)) (hexDigitChar (n / 256 % 16))
      (hexDigitChar (n / 16 % 16)) (hexDigitChar (n % 16)) = some n := by
  unfold hex4Val
  rw [parseHexDigit_hexDigitChar (Nat.mod_lt _ (by norm_num)),
    parseHexDigit_hexDigitChar (Nat.mod_lt _ (by norm_num)),
    parseHexDigit_hexDigitChar (Nat.mod_lt _ (by norm_num)),
    parseHexDigit_hexDigitChar (Nat.mod_lt _ (by norm_num))]
  show some ((((n / 4096 % 16) * 16 + n / 256 % 16) * 16 + n / 16 % 16) * 16
    + n % 16) = some n
  congr 1
  omega

set_option maxHeartbeats 1000000 in
/-- `parseStringBody` on a head character that is neither the closing quote
nor a backslash. -/
theorem parseStringBody_other (c : Char) (tl : List Char)
    (h1 : c ≠ '"') (h2 : c ≠ '\\') :
    parseStringBody (c :: tl)
      = if c.toNat < 0x20 then none else consFst c (parseStringBody tl) := by
  rw [parseStringBody.eq_def]
  split
  · rename_i heq
    simp at heq
  · rename_i r heq
    injection heq with ha hb
    exact absurd ha h1
  · rename_i esc heq
    injection heq with ha hb
    exact absurd ha h2
  · rename_i c2 rest heq
    injection heq with ha hb
    rw [ha, hb]

set_option maxHeartbeats 1000000 in
/-- One escaped character is read back as the character it encodes. -/
theorem parseStringBody_escape (c : Char) (tl : List Char) :
    parseStringBody (escapeChar c ++ tl) = consFst c (parseStringBody tl) := by
  by_cases h1 : c = '"'
  · subst h1; rfl
  by_cases h2 : c = '\\'
  · subst h2; rfl
  by_cases h3 : c = '\n'
  · subst h3; rfl
  by_cases h4 : c = '\r'
  · subst h4; rfl
  by_cases h5 : c = '\t'
  · subst h5; rfl
  by_cases h6 : c = '\x08'
  · subst h6; rfl
  by_cases h7 : c = '\x0c'
  · subst h7; rfl
  by_cases h8 : 0x20 ≤ c.toNat ∧ c.toNat ≤ 0x7e
  · have hesc : escapeChar c = [c] := by
      unfold escapeChar
      rw [if_neg h1, if_neg h2, if_neg h3, if_neg h4, if_neg h5, if_neg h6,
        if_neg h7, if_pos h8]
    rw [hesc, List.singleton_append, parseStringBody_other c tl h1 h2,
      if_neg (by omega)]
  have hval : Nat.isValidChar c.toNat := c.valid
  by_cases h9 : c.toNat < 0x10000
  · have hesc : escapeChar c = '\\' :: 'u' :: hex4 c.toNat := by
      unfold escapeChar
      rw [if_neg h1, if_neg h2, if_neg h3, if_neg h4, if_neg h5, if_neg h6,
        if_neg h7, if_neg h8, if_pos h9]
    have hx := hex4Val_hex4 h9
    have hns : c.toNat < 0xd800 ∨ 0xdfff < c.toNat := by
      obtain h | ⟨ha, hb⟩ := hval
      · exact Or.inl h
      · exact Or.inr ha
    have hA : ¬(0xd800 ≤ c.toNat ∧ c.toNat ≤ 0xdbff) := by
      obtain h | h := hns <;> omega
    have hB : ¬(0xdc00 ≤ c.toNat ∧ c.toNat ≤ 0xdfff) := by
      obtain h | h := hns <;> omega
    rw [hesc]
    simp only [hex4, List.cons_append, List.nil_append]
    rw [parseStringBody.eq_def]
    simp only [hx, hA, hB, if_false]
    simp [Char.ofNat_toNat]
  · have hesc : escapeChar c
        = ('\\' :: 'u' :: hex4 (0xd800 + (c.toNat - 0x10000) / 0x400))
          ++ ('\\' :: 'u' :: hex4 (0xdc00 + (c.toNat - 0x10000) % 0x400)) := by
      unfold escapeChar
      rw [if_neg h1, if_neg h2, if_neg h3, if_neg h4, if_neg h5, if_neg h6,
        if_neg h7, if_neg h8, if_neg h9]
    have hub : c.toNat < 0x110000 := by
      obtain h | ⟨ha, hb⟩ := hval
      · omega
      · omega
    have hhi := hex4Val_hex4
      (show 0xd800 + (c.toNat - 0x10000) / 0x400 < 0x10000 by omega)
    have hlo := hex4Val_hex4
      (show 0xdc00 + (c.toNat - 0x10000) % 0x400 < 0x10000 by omega)
    have hAhi : 0xd800 ≤ 0xd800 + (c.toNat - 0x10000) / 0x400
        ∧ 0xd800 + (c.toNat - 0x10000) / 0x400 ≤ 0xdbff := by
      constructor <;> omega
    have hBlo : 0xdc00 ≤ 0xdc00 + (c.toNat - 0x10000) % 0x400
        ∧ 0xdc00 + (c.toNat - 0x10000) % 0x400 ≤ 0xdfff := by
      constructor <;> omega
    rw [hesc]
    simp only [hex4, List.cons_append, List.nil_append]
    rw [parseStringBody.eq_def]
    simp only [hhi, hlo, hAhi, hBlo, if_true]
    rw [show 0x10000 + ((0xd800 + (c.toNat - 0x10000) / 0x400) - 0xd800) * 0x400
        + ((0xdc00 + (c.toNat - 0x10000) % 0x400) - 0xdc00) = c.toNat from by
      omega]
    simp [Char.ofNat_toNat]

/-- A dumped string body followed by the closing quote is read back as the
original characters. -/
theorem parseStringBody_strBody (cs : List Char) (rest : List Char) :
    parseStringBody (cs.bind escapeChar ++ ('"' :: rest)) = some (cs, rest) := by
  induction cs with
  | nil => rfl
  | cons c cs ih =>
    show parseStringBody ((escapeChar c ++ cs.bind escapeChar) ++ '"' :: rest)
      = some (c :: cs, rest)
    rw [List.append_assoc, parseStringBody_escape, ih]
    rfl

theorem parseStringBody_printString (s : String) (rest : List Char) :
    parseStringBody (strBody s ++ ('"' :: rest)) = some (s.data, rest) :=
  parseStringBody_strBody s.data rest

/-! ## The printed text parses back (towards C9) -/

/-- A digit can open no other token of the value grammar. -/
theorem digit_not_special {c : Char} (hd : c.isDigit = true) :
    isJsonWs c = false ∧ c ≠ ']' ∧ c ≠ '\x7d' ∧ c ≠ ',' ∧ c ≠ '\uFEFF' := by
  have hne : ∀ x : Char, x.isDigit = false → c ≠ x := by
    intro x hx h
    subst h
    rw [hd] at hx
    simp at hx
  refine ⟨?_, hne ']' (by decide), hne '\x7d' (by decide),
    hne ',' (by decide), hne '\uFEFF' (by decide)⟩
  unfold isJsonWs
  simp [hne ' ' (by decide), hne '\t' (by decide), hne '\n' (by decide),
    hne '\r' (by decide)]

/-- Every printed value is nonempty and opens with a character that is not
whitespace, a closer, a comma, or a byte-order mark. -/
theorem printVal_head (v : JVal) :
    ∃ c t, printVal v = c :: t ∧ isJsonWs c = false ∧ c ≠ ']' ∧ c ≠ '\x7d'
      ∧ c ≠ ',' ∧ c ≠ '\uFEFF' := by
  cases v with
  | jnull => exact ⟨'n', _, rfl, by decide, by decide, by decide, by decide,
      by decide⟩
  | jbool b =>
    cases b with
    | true => exact ⟨'t', _, rfl, by decide, by decide, by decide, by decide,
        by decide⟩
    | false => exact ⟨'f', _, rfl, by decide, by decide, by decide, by decide,
        by decide⟩
  | jnum p =>
    cases p with
    | finite m e =>
      by_cases hm : m < 0
      · refine ⟨'-', renderCore m.natAbs e, ?_, by decide, by decide,
          by decide, by decide, by decide⟩
        show renderFinite m e = _
        unfold renderFinite
        rw [if_pos hm]
        rfl
      · obtain ⟨c, t, hct, hcd⟩ := renderCore_head_digit m.natAbs e
        obtain ⟨hw, h1, h2, h3, h4⟩ := digit_not_special hcd
        refine ⟨c, t, ?_, hw, h1, h2, h3, h4⟩
        show renderFinite m e = _
        unfold renderFinite
        rw [if_neg hm, List.nil_append]
        exact hct
    | inf => exact ⟨'I', _, rfl, by decide, by decide, by decide, by decide,
        by decide⟩
    | neginf => exact ⟨'-', _, rfl, by decide, by decide, by decide,
        by decide, by decide⟩
    | nan => exact ⟨'N', _, rfl, by decide, by decide, by decide, by decide,
        by decide⟩
  | jstr s => exact ⟨'"', _, rfl, by decide, by decide, by decide, by decide,
      by decide⟩
  | jarr xs =>
    cases xs with
    | nil => exact ⟨'[', _, rfl, by decide, by decide, by decide, by decide,
        by decide⟩
    | cons x xs => exact ⟨'[', _, rfl, by decide, by decide, by decide,
        by decide, by decide⟩
  | jobj kvs =>
    cases kvs with
    | nil => exact ⟨'\x7b', _, rfl, by decide, by decide, by decide,
        by decide, by decide⟩
    | cons kv kvs =>
      obtain ⟨k, v⟩ := kv
      exact ⟨'\x7b', _, rfl, by decide, by decide, by decide, by decide,
        by decide⟩

theorem skipWs_cons_of_not_ws {c : Char} (h : isJsonWs c = false)
    (t : List Char) : skipWs (c :: t) = c :: t := by
  simp [skipWs, List.dropWhile_cons, h]

theorem skipWs_space (t : List Char) : skipWs (' ' :: t) = skipWs t := by
  simp [skipWs, List.dropWhile_cons, show isJsonWs ' ' = true from rfl]

theorem skipWs_printVal (x : JVal) (Z : List Char) :
    skipWs (printVal x ++ Z) = printVal x ++ Z := by
  obtain ⟨c, t, hct, hcw, _, _, _, _⟩ := printVal_head x
  rw [hct, List.cons_append, skipWs_cons_of_not_ws hcw]

/-- What follows a printed array element cannot extend a number match. -/
theorem elemsBoundary (xs : List JVal) (rest : List Char) :
    numBoundary (printElemsRest xs ++ (']' :: rest)) = true := by
  cases xs <;> rfl

theorem elemsRest_skipWs (xs : List JVal) (rest : List Char) :
    skipWs (printElemsRest xs ++ (']' :: rest))
      = printElemsRest xs ++ (']' :: rest) := by
  cases xs with
  | nil => exact skipWs_cons_of_not_ws (by decide) _
  | cons x xs => exact skipWs_cons_of_not_ws (by decide) _

/-- What follows a printed object member cannot extend a number match. -/
theorem membersBoundary (kvs : List (String × JVal)) (rest : List Char) :
    numBoundary (printMembersRest kvs ++ ('\x7d' :: rest)) = true := by
  cases kvs with
  | nil => rfl
  | cons kv kvs => obtain ⟨k, v⟩ := kv; rfl

theorem membersRest_skipWs (kvs : List (String × JVal)) (rest : List Char) :
    skipWs (printMembersRest kvs ++ ('\x7d' :: rest))
      = printMembersRest kvs ++ ('\x7d' :: rest) := by
  cases kvs with
  | nil => exact skipWs_cons_of_not_ws (by decide) _
  | cons kv kvs =>
    obtain ⟨k, v⟩ := kv
    exact skipWs_cons_of_not_ws (by decide) _

theorem parseVal_str (f : Nat) (rest : List Char) :
    parseVal (f + 1) ('"' :: rest)
      = (parseStringBody rest).map (fun p => (JVal.jstr (String.mk p.1), p.2)) :=
  rfl

theorem parseVal_arr (f : Nat) (rest : List Char) :
    parseVal (f + 1) ('[' :: rest)
      = (match skipWs rest with
        | ']' :: r2 => some (.jarr [], r2)
        | rest1 =>
          match parseVal f rest1 with
          | none => none
          | some (v, r2) =>
            match parseArrTail f (skipWs r2) with
            | none => none
            | some (vs, r3) => some (.jarr (v :: vs), r3)) := rfl

theorem parseVal_obj (f : Nat) (rest : List Char) :
    parseVal (f + 1) ('\x7b' :: rest)
      = (match skipWs rest with
        | '\x7d' :: r2 => some (.jobj [], r2)
        | '"' :: r2 =>
          (match parseStringBody r2 with
          | none => none
          | some (kcs, r3) =>
            match skipWs r3 with
            | ':' :: r4 =>
              (match parseVal f (skipWs r4) with
              | none => none
              | some (v, r5) =>
                match parseObjTail f (skipWs r5) with
                | none => none
                | some (kvs, r6) => some (.jobj ((String.mk kcs, v) :: kvs), r6))
            | _ => none)
        | _ => none) := rfl

theorem parseArrTail_comma (f : Nat) (rest : List Char) :
    parseArrTail (f + 1) (',' :: rest)
      = (match parseVal f (skipWs rest) with
        | none => none
        | some (v, r2) =>
          match parseArrTail f (skipWs r2) with
          | none => none
          | some (vs, r3) => some (v :: vs, r3)) := rfl

theorem parseObjTail_comma (f : Nat) (rest : List Char) :
    parseObjTail (f + 1) (',' :: rest)
      = (match skipWs rest with
        | '"' :: r2 =>
          (match parseStringBody r2 with
          | none => none
          | some (kcs, r3) =>
            match skipWs r3 with
            | ':' :: r4 =>
              (match parseVal f (skipWs r4) with
              | none => none
              | some (v, r5) =>
                match parseObjTail f (skipWs r5) with
                | none => none
                | some (kvs, r6) => some ((String.mk kcs, v) :: kvs, r6))
            | _ => none)
        | _ => none) := rfl

/-- The ten decimal digit characters. -/
theorem digit_eq {c : Char} (h : c.isDigit = true) :
    c = '0' ∨ c = '1' ∨ c = '2' ∨ c = '3' ∨ c = '4' ∨ c = '5' ∨ c = '6'
      ∨ c = '7' ∨ c = '8' ∨ c = '9' := by
  have h2 : 48 ≤ c.val ∧ c.val ≤ 57 := by simpa [Char.isDigit] using h
  have h3 : 48 ≤ c.toNat := UInt32.le_toNat_of_le (by norm_num) h2.1
  have h4 : c.toNat ≤ 57 := UInt32.toNat_le_of_le (by norm_num) h2.2
  have h5 := Char.ofNat_toNat c
  set n := c.toNat with hn
  interval_cases n <;> (subst h5; decide)

set_option maxHeartbeats 1000000 in
/-- A digit-headed input falls through every keyword and bracket pattern to
the number branch. -/
theorem parseVal_default (f : Nat) (c : Char) (t : List Char)
    (hcd : c.isDigit = true) :
    parseVal (f + 1) (c :: t)
      = (parseJNum (c :: t)).map (fun p => (JVal.jnum p.1, p.2)) := by
  rcases digit_eq hcd with h | h | h | h | h | h | h | h | h | h <;>
    (subst h; rfl)

set_option maxHeartbeats 1000000 in
/-- A minus sign followed by a digit falls through to the number branch. -/
theorem parseVal_default_neg (f : Nat) (c : Char) (t : List Char)
    (hcd : c.isDigit = true) :
    parseVal (f + 1) ('-' :: c :: t)
      = (parseJNum ('-' :: c :: t)).map (fun p => (JVal.jnum p.1, p.2)) := by
  rcases digit_eq hcd with h | h | h | h | h | h | h | h | h | h <;>
    (subst h; rfl)

mutual

/-- Fuel adequate for parsing a printed value: one unit per parse step. -/
def jsize : JVal → Nat
  | .jnull => 1
  | .jbool _ => 1
  | .jnum _ => 1
  | .jstr _ => 1
  | .jarr xs => jsizeList xs + 1
  | .jobj kvs => jsizeFields kvs + 1

def jsizeList : List JVal → Nat
  | [] => 0
  | x :: xs => jsize x + jsizeList xs + 1

def jsizeFields : List (String × JVal) → Nat
  | [] => 0
  | (_, v) :: kvs => jsize v + jsizeFields kvs + 1

end

theorem parseArrTail_print (xs : List JVal)
    (ih : ∀ x ∈ xs, ∀ f rest, jsize x ≤ f → numBoundary rest = true →
      parseVal f (printVal x ++ rest) = some (x, rest)) :
    ∀ f rest, jsizeList xs + 1 ≤ f →
      parseArrTail f (printElemsRest xs ++ (']' :: rest)) = some (xs, rest) := by
  induction xs with
  | nil =>
    intro f rest hf
    obtain ⟨f1, rfl⟩ : ∃ f1, f = f1 + 1 := ⟨f - 1, by omega⟩
    rfl
  | cons x xs2 ihl =>
    intro f rest hf
    have hsz : jsizeList (x :: xs2) = jsize x + jsizeList xs2 + 1 := rfl
    obtain ⟨f1, rfl⟩ : ∃ f1, f = f1 + 1 := ⟨f - 1, by omega⟩
    rw [show printElemsRest (x :: xs2) ++ (']' :: rest)
        = ',' :: (' ' :: (printVal x ++ (printElemsRest xs2 ++ (']' :: rest))))
      from by
        show (',' :: ' ' :: (printVal x ++ printElemsRest xs2)) ++ (']' :: rest)
          = _
        simp [List.append_assoc]]
    rw [parseArrTail_comma, skipWs_space, skipWs_printVal]
    rw [ih x (by simp) f1 (printElemsRest xs2 ++ (']' :: rest)) (by omega)
      (elemsBoundary xs2 rest)]
    show (match parseArrTail f1 (skipWs (printElemsRest xs2 ++ (']' :: rest))) with
      | none => none
      | some (vs, r3) => some (x :: vs, r3)) = some (x :: xs2, rest)
    rw [elemsRest_skipWs]
    rw [ihl (fun y hy => ih y (by simp [hy])) f1 rest (by omega)]

theorem parseObjTail_print (kvs : List (String × JVal))
    (ih : ∀ kv ∈ kvs, ∀ f rest, jsize (Prod.snd kv) ≤ f → numBoundary rest = true →
      parseVal f (printVal (Prod.snd kv) ++ rest) = some (Prod.snd kv, rest)) :
    ∀ f rest, jsizeFields kvs + 1 ≤ f →
      parseObjTail f (printMembersRest kvs ++ ('\x7d' :: rest)) = some (kvs, rest) := by
  induction kvs with
  | nil =>
    intro f rest hf
    obtain ⟨f1, rfl⟩ : ∃ f1, f = f1 + 1 := ⟨f - 1, by omega⟩
    rfl
  | cons kv kvs2 ihl =>
    obtain ⟨k, v⟩ := kv
    intro f rest hf
    have hsz : jsizeFields ((k, v) :: kvs2) = jsize v + jsizeFields kvs2 + 1 := rfl
    obtain ⟨f1, rfl⟩ : ∃ f1, f = f1 + 1 := ⟨f - 1, by omega⟩
    have hv : ∀ f r, jsize v ≤ f → numBoundary r = true →
        parseVal f (printVal v ++ r) = some (v, r) := ih (k, v) (by simp)
    rw [show printMembersRest ((k, v) :: kvs2) ++ ('\x7d' :: rest)
        = ',' :: (' ' :: ('"' :: (strBody k ++ ('"' :: (':' :: (' ' :: (printVal v
            ++ (printMembersRest kvs2 ++ ('\x7d' :: rest))))))))) from by
      show (',' :: ' ' :: (printString k
          ++ ':' :: ' ' :: printVal v ++ printMembersRest kvs2))
          ++ ('\x7d' :: rest) = _
      simp [printString, List.append_assoc]]
    rw [parseObjTail_comma, skipWs_space, skipWs_cons_of_not_ws (by decide)]
    show (match parseStringBody (strBody k ++ ('"' :: (':' :: (' ' :: (printVal v
        ++ (printMembersRest kvs2 ++ ('\x7d' :: rest))))))) with
      | none => none
      | some (kcs, r3) =>
        match skipWs r3 with
        | ':' :: r4 =>
          (match parseVal f1 (skipWs r4) with
          | none => none
          | some (v2, r5) =>
            match parseObjTail f1 (skipWs r5) with
            | none => none
            | some (kvs3, r6) => some ((String.mk kcs, v2) :: kvs3, r6))
        | _ => none) = some ((k, v) :: kvs2, rest)
    rw [parseStringBody_printString]
    show (match skipWs (':' :: (' ' :: (printVal v ++ (printMembersRest kvs2
        ++ ('\x7d' :: rest))))) with
      | ':' :: r4 =>
        (match parseVal f1 (skipWs r4) with
        | none => none
        | some (v2, r5) =>
          match parseObjTail f1 (skipWs r5) with
          | none => none
          | some (kvs3, r6) => some ((String.mk k.data, v2) :: kvs3, r6))
      | _ => none) = some ((k, v) :: kvs2, rest)
    rw [skipWs_cons_of_not_ws (by decide)]
    show (match parseVal f1 (skipWs (' ' :: (printVal v ++ (printMembersRest kvs2
        ++ ('\x7d' :: rest))))) with
      | none => none
      | some (v2, r5) =>
        match parseObjTail f1 (skipWs r5) with
        | none => none
        | some (kvs3, r6) => some ((String.mk k.data, v2) :: kvs3, r6))
      = some ((k, v) :: kvs2, rest)
    rw [skipWs_space, skipWs_printVal,
      hv f1 (printMembersRest kvs2 ++ ('\x7d' :: rest)) (by omega)
        (membersBoundary kvs2 rest)]
    show (match parseObjTail f1 (skipWs (printMembersRest kvs2 ++ ('\x7d' :: rest))) with
      | none => none
      | some (kvs3, r6) => some ((String.mk k.data, v) :: kvs3, r6))
      = some ((k, v) :: kvs2, rest)
    rw [membersRest_skipWs,
      ihl (fun y hy => ih y (by simp [hy])) f1 rest (by omega)]

set_option maxHeartbeats 2000000 in
/-- What `json.dumps` prints, `json.loads`-style parsing reads back, for
every value and any fuel at least the value's size. -/
theorem parseVal_printVal : ∀ v : JVal, ∀ f rest, jsize v ≤ f →
    numBoundary rest = true → parseVal f (printVal v ++ rest) = some (v, rest) := by
  intro v
  induction v using JVal.inductionOn with
  | hnull =>
    intro f rest hf hb
    obtain ⟨f1, rfl⟩ : ∃ f1, f = f1 + 1 := ⟨f - 1, by simp [jsize] at hf; omega⟩
    rfl
  | hbool b =>
    intro f rest hf hb
    obtain ⟨f1, rfl⟩ : ∃ f1, f = f1 + 1 := ⟨f - 1, by simp [jsize] at hf; omega⟩
    cases b <;> rfl
  | hnum p =>
    intro f rest hf hb
    obtain ⟨f1, rfl⟩ : ∃ f1, f = f1 + 1 := ⟨f - 1, by simp [jsize] at hf; omega⟩
    cases p with
    | inf => rfl
    | neginf => rfl
    | nan => rfl
    | finite m e =>
      obtain ⟨c, t, hct, hcd⟩ := renderCore_head_digit m.natAbs e
      by_cases hm : m < 0
      · have hrf : renderFinite m e ++ rest = '-' :: c :: (t ++ rest) := by
          unfold renderFinite
          rw [if_pos hm, hct]
          simp
        rw [show printVal (.jnum (.finite m e)) ++ rest = '-' :: c :: (t ++ rest)
            from hrf]
        rw [parseVal_default_neg f1 c _ hcd, ← hrf,
          parseJNum_renderFinite m e rest hb]
        rfl
      · have hrf : renderFinite m e ++ rest = c :: (t ++ rest) := by
          unfold renderFinite
          rw [if_neg hm, List.nil_append, hct]
          rfl
        rw [show printVal (.jnum (.finite m e)) ++ rest = c :: (t ++ rest)
            from hrf]
        rw [parseVal_default f1 c _ hcd, ← hrf,
          parseJNum_renderFinite m e rest hb]
        rfl
  | hstr s =>
    intro f rest hf hb
    obtain ⟨f1, rfl⟩ : ∃ f1, f = f1 + 1 := ⟨f - 1, by simp [jsize] at hf; omega⟩
    rw [show printVal (JVal.jstr s) ++ rest = '"' :: (strBody s ++ ('"' :: rest))
        from by
      show ('"' :: strBody s ++ ['"']) ++ rest = _
      simp [List.append_assoc]]
    rw [parseVal_str, parseStringBody_printString]
    rfl
  | harr xs ihm =>
    intro f rest hf hb
    cases xs with
    | nil =>
      obtain ⟨f1, rfl⟩ : ∃ f1, f = f1 + 1 := ⟨f - 1, by
        have : jsize (JVal.jarr []) = 1 := rfl
        omega⟩
      rfl
    | cons x xs2 =>
      have hsz : jsize (JVal.jarr (x :: xs2)) = jsize x + jsizeList xs2 + 2 := rfl
      obtain ⟨f1, rfl⟩ : ∃ f1, f = f1 + 1 := ⟨f - 1, by omega⟩
      have hx := ihm x (by simp)
      obtain ⟨c, t, hct, hcw, hc1, _, _, _⟩ := printVal_head x
      rw [show printVal (.jarr (x :: xs2)) ++ rest
          = '[' :: (printVal x ++ (printElemsRest xs2 ++ (']' :: rest))) from by
        show ('[' :: (printVal x ++ printElemsRest xs2 ++ [']'])) ++ rest = _
        simp [List.append_assoc]]
      rw [parseVal_arr, skipWs_printVal]
      have hcons : printVal x ++ (printElemsRest xs2 ++ (']' :: rest))
          = c :: (t ++ (printElemsRest xs2 ++ (']' :: rest))) := by
        rw [hct]
        rfl
      rw [hcons]
      split
      · rename_i r2 heq
        injection heq with ha hb2
        exact absurd ha hc1
      · rw [← hcons]
        rw [hx f1 _ (by omega) (elemsBoundary xs2 rest)]
        show (match parseArrTail f1 (skipWs (printElemsRest xs2 ++ (']' :: rest))) with
          | none => none
          | some (vs, r3) => some (JVal.jarr (x :: vs), r3))
          = some (.jarr (x :: xs2), rest)
        rw [elemsRest_skipWs,
          parseArrTail_print xs2 (fun y hy => ihm y (by simp [hy])) f1 rest
            (by omega)]
  | hobj kvs ihm =>
    intro f rest hf hb
    cases kvs with
    | nil =>
      obtain ⟨f1, rfl⟩ : ∃ f1, f = f1 + 1 := ⟨f - 1, by
        have : jsize (JVal.jobj []) = 1 := rfl
        omega⟩
      rfl
    | cons kv kvs2 =>
      obtain ⟨k, v⟩ := kv
      have hsz : jsize (JVal.jobj ((k, v) :: kvs2))
          = jsize v + jsizeFields kvs2 + 2 := rfl
      obtain ⟨f1, rfl⟩ : ∃ f1, f = f1 + 1 := ⟨f - 1, by omega⟩
      have hv : ∀ f r, jsize v ≤ f → numBoundary r = true →
          parseVal f (printVal v ++ r) = some (v, r) := ihm (k, v) (by simp)
      rw [show printVal (.jobj ((k, v) :: kvs2)) ++ rest
          = '\x7b' :: ('"' :: (strBody k ++ ('"' :: (':' :: (' ' :: (printVal v
              ++ (printMembersRest kvs2 ++ ('\x7d' :: rest)))))))) from by
        show ('\x7b' :: (printString k ++ ':' :: ' ' :: printVal v
            ++ printMembersRest kvs2 ++ ['\x7d'])) ++ rest = _
        simp [printString, List.append_assoc]]
      rw [parseVal_obj, skipWs_cons_of_not_ws (by decide)]
      show (match parseStringBody (strBody k ++ ('"' :: (':' :: (' ' :: (printVal v
          ++ (printMembersRest kvs2 ++ ('\x7d' :: rest))))))) with
        | none => none
        | some (kcs, r3) =>
          match skipWs r3 with
          | ':' :: r4 =>
            (match parseVal f1 (skipWs r4) with
            | none => none
            | some (v2, r5) =>
              match parseObjTail f1 (skipWs r5) with
              | none => none
              | some (kvs3, r6) => some (JVal.jobj ((String.mk kcs, v2) :: kvs3), r6))
          | _ => none) = some (.jobj ((k, v) :: kvs2), rest)
      rw [parseStringBody_printString]
      show (match skipWs (':' :: (' ' :: (printVal v ++ (printMembersRest kvs2
          ++ ('\x7d' :: rest))))) with
        | ':' :: r4 =>
          (match parseVal f1 (skipWs r4) with
          | none => none
          | some (v2, r5) =>
            match parseObjTail f1 (skipWs r5) with
            | none => none
            | some (kvs3, r6) => some (JVal.jobj ((String.mk k.data, v2) :: kvs3), r6))
        | _ => none) = some (.jobj ((k, v) :: kvs2), rest)
      rw [skipWs_cons_of_not_ws (by decide)]
      show (match parseVal f1 (skipWs (' ' :: (printVal v ++ (printMembersRest kvs2
          ++ ('\x7d' :: rest))))) with
        | none => none
        | some (v2, r5) =>
          match parseObjTail f1 (skipWs r5) with
          | none => none
          | some (kvs3, r6) => some (JVal.jobj ((String.mk k.data, v2) :: kvs3), r6))
        = some (.jobj ((k, v) :: kvs2), rest)
      rw [skipWs_space, skipWs_printVal, hv f1 _ (by omega)
        (membersBoundary kvs2 rest)]
      show (match parseObjTail f1 (skipWs (printMembersRest kvs2
          ++ ('\x7d' :: rest))) with
        | none => none
        | some (kvs3, r6) => some (JVal.jobj ((String.mk k.data, v) :: kvs3), r6))
        = some (.jobj ((k, v) :: kvs2), rest)
      rw [membersRest_skipWs,
        parseObjTail_print kvs2 (fun y hy => ihm y (by simp [hy])) f1 rest
          (by omega)]

theorem jsizeList_le (ys : List JVal)
    (h : ∀ y ∈ ys, jsize y ≤ (printVal y).length) :
    jsizeList ys ≤ (printElemsRest ys).length := by
  induction ys with
  | nil => simp [jsizeList, printElemsRest]
  | cons y ys ihy =>
    have hy := h y (by simp)
    have hys := ihy (fun z hz => h z (by simp [hz]))
    show jsize y + jsizeList ys + 1
      ≤ (',' :: ' ' :: (printVal y ++ printElemsRest ys)).length
    simp only [List.length_cons, List.length_append]
    omega

theorem jsizeFields_le (kvs : List (String × JVal))
    (h : ∀ kv ∈ kvs, jsize (Prod.snd kv) ≤ (printVal (Prod.snd kv)).length) :
    jsizeFields kvs ≤ (printMembersRest kvs).length := by
  induction kvs with
  | nil => simp [jsizeFields, printMembersRest]
  | cons kv kvs ihy =>
    obtain ⟨k, v⟩ := kv
    have hv : jsize v ≤ (printVal v).length := h (k, v) (by simp)
    have hkvs := ihy (fun z hz => h z (by simp [hz]))
    show jsize v + jsizeFields kvs + 1
      ≤ (',' :: ' ' :: (printString k
          ++ ':' :: ' ' :: printVal v ++ printMembersRest kvs)).length
    simp only [List.length_cons, List.length_append]
    omega

theorem printVal_length_pos (v : JVal) : 1 ≤ (printVal v).length := by
  obtain ⟨c, t, hct, _, _, _, _, _⟩ := printVal_head v
  rw [hct]
  simp

/-- The fuel `json_loads` supplies covers the printed value. -/
theorem jsize_le_printVal : ∀ v : JVal, jsize v ≤ (printVal v).length := by
  intro v
  induction v using JVal.inductionOn with
  | hnull => decide
  | hbool b => cases b <;> decide
  | hnum p => exact printVal_length_pos _
  | hstr s => exact printVal_length_pos _
  | harr xs ih =>
    cases xs with
    | nil => decide
    | cons x xs2 =>
      have h1 := ih x (by simp)
      have h2 := jsizeList_le xs2 (fun z hz => ih z (by simp [hz]))
      show jsize x + jsizeList xs2 + 2
        ≤ ('[' :: (printVal x ++ printElemsRest xs2 ++ [']'])).length
      simp only [List.length_cons, List.length_append]
      omega
  | hobj kvs ih =>
    cases kvs with
    | nil => decide
    | cons kv kvs2 =>
      obtain ⟨k, v⟩ := kv
      have h1 : jsize v ≤ (printVal v).length := ih (k, v) (by simp)
      have h2 := jsizeFields_le kvs2 (fun z hz => ih z (by simp [hz]))
      show jsize v + jsizeFields kvs2 + 2
        ≤ ('\x7b' :: (printString k ++ ':' :: ' ' :: printVal v
            ++ printMembersRest kvs2 ++ ['\x7d'])).length
      simp only [List.length_cons, List.length_append]
      omega

/-- `json.loads` inverts `json.dumps`. -/
theorem json_loads_dumps (v : JVal) : json_loads (json_dumps v) = some v := by
  unfold json_loads
  have hdata : (json_dumps v).data = printVal v := rfl
  rw [hdata]
  have h1 : parseVal ((printVal v).length + 1) (skipWs (printVal v))
      = some (v, []) := by
    have h0 : skipWs (printVal v) = printVal v ++ ([] : List Char) := by
      rw [List.append_nil]
      have h2 := skipWs_printVal v []
      rwa [List.append_nil] at h2
    rw [h0]
    exact parseVal_printVal v _ [] (by have := jsize_le_printVal v; omega) rfl
  rw [h1]
  rfl

theorem dropBOM (l : List Char) (h : ∀ c, l.head? = some c → c ≠ '\uFEFF') :
    l.dropWhile (fun x => x = '\uFEFF') = l := by
  cases l with
  | nil => rfl
  | cons c t =>
    rw [List.dropWhile_cons, if_neg (by simp [h c rfl])]

theorem bomStrip_of_head {s : String}
    (h : ∀ c, s.data.head? = some c → c ≠ '\uFEFF') : bomStrip s = s := by
  unfold bomStrip
  split
  · rename_i c t heq
    rw [if_neg (h c (by rw [heq]; rfl))]
  · rfl

/-- The printed form of a value never opens with a byte-order mark. -/
theorem bomStrip_dumps (v : JVal) : bomStrip (json_dumps v) = json_dumps v := by
  apply bomStrip_of_head
  intro c hc
  obtain ⟨c2, t, hct, _, _, _, _, hbom⟩ := printVal_head v
  have hd : (json_dumps v).data = printVal v := rfl
  rw [hd, hct, List.head?_cons] at hc
  have := Option.some.inj hc
  subst this
  exact hbom

/-- `lstrip` of the BOM character removes a leading byte-order mark before a printed
value. -/
theorem bomStrip_dumps_bom (v : JVal) :
    bomStrip (String.mk ('\uFEFF' :: (json_dumps v).data)) = json_dumps v := by
  show (if ('\uFEFF' : Char) = '\uFEFF'
      then String.mk (List.dropWhile (fun x => x = '\uFEFF')
        ('\uFEFF' :: (json_dumps v).data))
      else String.mk ('\uFEFF' :: (json_dumps v).data)) = json_dumps v
  rw [if_pos rfl, List.dropWhile_cons, if_pos (by simp)]
  have hd : (json_dumps v).data = printVal v := rfl
  rw [hd]
  obtain ⟨c2, t, hct, _, _, _, _, hbom⟩ := printVal_head v
  rw [dropBOM (printVal v) (by
    intro c hc
    rw [hct, List.head?_cons] at hc
    have := Option.some.inj hc
    subst this
    exact hbom)]
  rfl

/-- `_json_loads_maybe_twice` when the decoded value is not a string: one
decode. -/
theorem jlmt_not_str (s s2 : String) (o : JVal) (h1 : bomStrip s = s2)
    (h2 : json_loads s2 = some o) (h3 : ∀ t, o ≠ .jstr t) :
    _json_loads_maybe_twice s = .ok o := by
  simp only [_json_loads_maybe_twice]
  rw [h1, h2]
  cases o with
  | jstr t => exact absurd rfl (h3 t)
  | jnull => rfl
  | jbool b => rfl
  | jnum p => rfl
  | jarr xs => rfl
  | jobj kvs => rfl

/-- `_json_loads_maybe_twice` when the decoded value is a string: unwrap
once more. -/
theorem jlmt_str (s s2 t : String) (o : JVal) (h1 : bomStrip s = s2)
    (h2 : json_loads s2 = some (.jstr t)) (h3 : json_loads (bomStrip t) = some o) :
    _json_loads_maybe_twice s = .ok o := by
  simp only [_json_loads_maybe_twice]
  rw [h1, h2]
  show (match json_loads (bomStrip t) with
    | none => Except.error (PyErr.jsonDecodeError "Expecting value")
    | some obj2 => Except.ok obj2) = Except.ok o
  rw [h3]

/-- C9: payload decoding tolerates a leading byte-order mark and one level
of extra JSON string encoding — for every JSON object `o` (any field list),
the single-encoded body `dumps(o)`, the double-encoded body
`dumps(dumps(o))`, and each of them with a BOM prefixed at the outer level
or inside the wrapped string, all decode to `o` itself. -/
theorem claim_C9 (fields : List (String × JVal)) :
    (_json_loads_maybe_twice (json_dumps (.jobj fields)) = .ok (.jobj fields))
    ∧ (_json_loads_maybe_twice (json_dumps (.jstr (json_dumps (.jobj fields))))
        = .ok (.jobj fields))
    ∧ (_json_loads_maybe_twice
        (String.mk ('\uFEFF' :: (json_dumps (.jobj fields)).data))
        = .ok (.jobj fields))
    ∧ (_json_loads_maybe_twice
        (json_dumps (.jstr (String.mk ('\uFEFF' :: (json_dumps (.jobj fields)).data))))
        = .ok (.jobj fields))
    ∧ (_json_loads_maybe_twice
        (String.mk ('\uFEFF' :: (json_dumps (.jstr (json_dumps (.jobj fields)))).data))
        = .ok (.jobj fields)) := by
  have hno : ∀ t, (JVal.jobj fields) ≠ .jstr t := fun t h => JVal.noConfusion h
  refine ⟨?_, ?_, ?_, ?_, ?_⟩
  · exact jlmt_not_str _ _ _ (bomStrip_dumps _) (json_loads_dumps _) hno
  · exact jlmt_str _ _ _ _ (bomStrip_dumps _) (json_loads_dumps _)
      (by rw [bomStrip_dumps, json_loads_dumps])
  · exact jlmt_not_str _ _ _ (bomStrip_dumps_bom _) (json_loads_dumps _) hno
  · exact jlmt_str _ _ _ _ (bomStrip_dumps _) (json_loads_dumps _)
      (by rw [bomStrip_dumps_bom, json_loads_dumps])
  · exact jlmt_str _ _ _ _ (bomStrip_dumps_bom _) (json_loads_dumps _)
      (by rw [bomStrip_dumps, json_loads_dumps])

/-! ## Batch characterization (towards C2, C3, C10)

Spec-side descriptions of the handler loop, to be compared with
`lambda_handler_records`: the outcome, count, error text and dead-letter
record of the message at each enumerated position. -/

/-- The pipeline outcome of one enumerated record. -/
def msgRes (cfg : NormCfg) (now : PyDateTime) (oracle : BatchOracle)
    (ir : Nat × SqsRec) : Except PyErr Nat :=
  processOneBody cfg now (oracle.dbFail ir.1) ir.2.bodyOf

/-- Whether the message at an enumerated position fails any stage. -/
def msgFails (cfg : NormCfg) (now : PyDateTime) (oracle : BatchOracle)
    (ir : Nat × SqsRec) : Bool :=
  match msgRes cfg now oracle ir with
  | .ok _ => false
  | .error _ => true

/-- Rows upserted for the message (0 if it failed). -/
def msgCount (cfg : NormCfg) (now : PyDateTime) (oracle : BatchOracle)
    (ir : Nat × SqsRec) : Nat :=
  match msgRes cfg now oracle ir with
  | .ok n => n
  | .error _ => 0

/-- The error text `str(e)` handed to the dead-letter routine. -/
def msgErrMsg (cfg : NormCfg) (now : PyDateTime) (oracle : BatchOracle)
    (ir : Nat × SqsRec) : String :=
  match msgRes cfg now oracle ir with
  | .ok _ => ""
  | .error e => e.toMsg

/-- What `_send_to_dlq` does, as a value. -/
def dlqOutcomeFor (env : ConsumerEnv) (sendFail : Option String)
    (body err : String) : DlqOutcome :=
  if QUEUE_PROVIDER env ≠ "sqs" then .skippedNotSqs
  else if dlqUnset env then .droppedNoUrl
  else
    match sendFail with
    | none => .sent (json_dumps (.jobj [("error", .jstr err),
                                        ("original", .jstr body)]))
    | some e => .sendFailed (PyErr.storageError e).toMsg

/-- The dead-letter record of a failed message. -/
def msgDlq (env : ConsumerEnv) (cfg : NormCfg) (now : PyDateTime)
    (oracle : BatchOracle) (ir : Nat × SqsRec) : DlqOutcome :=
  dlqOutcomeFor env (oracle.sqsSendFail ir.1) ir.2.bodyOf
    (msgErrMsg cfg now oracle ir)

/-- Total row count over the batch. -/
def batchTotal (cfg : NormCfg) (now : PyDateTime) (oracle : BatchOracle)
    (recs : List SqsRec) : Nat :=
  (recs.enum.map (msgCount cfg now oracle)).sum

/-- The failed messages' identifiers, in batch order. -/
def batchFailures (cfg : NormCfg) (now : PyDateTime) (oracle : BatchOracle)
    (recs : List SqsRec) : List String :=
  (recs.enum.filter (msgFails cfg now oracle)).map (fun ir => ir.2.idOf)

/-- The dead-letter trace, one record per failed message, in batch order. -/
def batchDlog (env : ConsumerEnv) (cfg : NormCfg) (now : PyDateTime)
    (oracle : BatchOracle) (recs : List SqsRec) : List DlqOutcome :=
  (recs.enum.filter (msgFails cfg now oracle)).map (msgDlq env cfg now oracle)

theorem send_to_dlq_eq (env : ConsumerEnv) (sf : Option String)
    (b e : String) :
    _send_to_dlq env sf b e = .ok (dlqOutcomeFor env sf b e) := by
  unfold _send_to_dlq dlqOutcomeFor sqsSendMessage
  by_cases h1 : QUEUE_PROVIDER env ≠ "sqs"
  · rw [if_pos h1, if_pos h1]
  · rw [if_neg h1, if_neg h1]
    by_cases h2 : dlqUnset env = true
    · rw [if_pos h2, if_pos h2]
    · rw [if_neg h2, if_neg h2]
      cases sf <;> rfl

theorem handler_foldlM (env : ConsumerEnv) (cfg : NormCfg) (now : PyDateTime)
    (oracle : BatchOracle) :
    ∀ (l : List (Nat × SqsRec)) (t0 : Nat) (fs0 : List String)
      (dl0 : List DlqOutcome),
      l.foldlM (handlerStep env cfg now oracle) (t0, fs0, dl0)
        = .ok (t0 + (l.map (msgCount cfg now oracle)).sum,
               fs0 ++ (l.filter (msgFails cfg now oracle)).map
                 (fun ir => ir.2.idOf),
               dl0 ++ (l.filter (msgFails cfg now oracle)).map
                 (msgDlq env cfg now oracle)) := by
  intro l
  induction l with
  | nil =>
    intro t0 fs0 dl0
    simp
    rfl
  | cons ir l ih =>
    obtain ⟨i, rec⟩ := ir
    intro t0 fs0 dl0
    rw [List.foldlM_cons]
    cases hres : processOneBody cfg now (oracle.dbFail i) rec.bodyOf with
    | ok n =>
      have hmf : msgFails cfg now oracle (i, rec) = false := by
        simp [msgFails, msgRes, hres]
      have hc : msgCount cfg now oracle (i, rec) = n := by
        simp [msgCount, msgRes, hres]
      have hstep : handlerStep env cfg now oracle (t0, fs0, dl0) (i, rec)
          = Except.ok (t0 + n, fs0, dl0) := by
        simp only [handlerStep]
        rw [hres]
        rfl
      rw [hstep, exceptBind_ok, ih]
      simp [List.filter_cons, hmf, hc, Nat.add_assoc]
    | error e =>
      have hmf : msgFails cfg now oracle (i, rec) = true := by
        simp [msgFails, msgRes, hres]
      have hc : msgCount cfg now oracle (i, rec) = 0 := by
        simp [msgCount, msgRes, hres]
      have hd : msgDlq env cfg now oracle (i, rec)
          = dlqOutcomeFor env (oracle.sqsSendFail i) rec.bodyOf e.toMsg := by
        simp [msgDlq, msgErrMsg, msgRes, hres]
      have hstep : handlerStep env cfg now oracle (t0, fs0, dl0) (i, rec)
          = Except.ok (t0, fs0 ++ [rec.idOf],
              dl0 ++ [dlqOutcomeFor env (oracle.sqsSendFail i) rec.bodyOf
                e.toMsg]) := by
        simp only [handlerStep]
        rw [hres]
        show (_send_to_dlq env (oracle.sqsSendFail i) rec.bodyOf e.toMsg
            >>= fun o => pure (t0, fs0 ++ [rec.idOf], dl0 ++ [o]))
          = _
        rw [send_to_dlq_eq, exceptBind_ok]
        rfl
      rw [hstep, exceptBind_ok, ih]
      simp [List.filter_cons, hmf, hc, hd, List.append_assoc]

/-- `lambda_handler` on a batch: always a normal return, failures exactly the
failing messages' identifiers in order, total the sum of the upserted
counts. -/
theorem lambda_handler_records_eq (env : ConsumerEnv) (cfg : NormCfg)
    (now : PyDateTime) (oracle : BatchOracle) (recs : List SqsRec) :
    lambda_handler_records env cfg now oracle recs
      = .ok (if batchFailures cfg now oracle recs = []
             then .okUpserted (batchTotal cfg now oracle recs)
             else .batchItemFailures (batchFailures cfg now oracle recs),
             batchDlog env cfg now oracle recs) := by
  unfold lambda_handler_records
  rw [handler_foldlM env cfg now oracle recs.enum 0 [] [], exceptBind_ok]
  simp only [List.nil_append, Nat.zero_add, batchFailures, batchTotal,
    batchDlog]
  by_cases hX : (recs.enum.filter (msgFails cfg now oracle)).map
      (fun ir => ir.2.idOf) = []
  · rw [hX]
    rfl
  · rw [if_pos hX, if_neg hX]
    rfl

/-- A pipeline that succeeds against a healthy store fails with exactly the
storage error when the store fails. -/
theorem processOneBody_db_err (cfg : NormCfg) (now : PyDateTime) (b : String)
    (n : Nat) (e : String)
    (h : processOneBody cfg now none b = .ok n) :
    processOneBody cfg now (some e) b = .error (.storageError e) := by
  unfold processOneBody at h ⊢
  cases hdec : _json_loads_maybe_twice b with
  | error e2 =>
    rw [hdec] at h
    have h2 : (Except.error e2 : Except PyErr Nat) = Except.ok n := h
    simp at h2
  | ok doc =>
    rw [hdec] at h
    have h2 : _process_doc cfg now none doc = Except.ok n := h
    show _process_doc cfg now (some e) doc = Except.error (.storageError e)
    unfold _process_doc at h2 ⊢
    cases hn1 : normalize_message cfg now doc with
    | error e2 =>
      rw [hn1] at h2
      have h3 : (Except.error e2 : Except PyErr Nat) = Except.ok n := h2
      simp at h3
    | ok norm =>
      rw [hn1] at h2
      have h3 : (do
          let _ ← validate_doc norm
          let rows ← doc_to_rows norm
          (match (none : Option String) with
           | some e3 => Except.error (PyErr.storageError e3)
           | none => Except.ok rows.length)) = Except.ok n := h2
      show (do
          let _ ← validate_doc norm
          let rows ← doc_to_rows norm
          (match (some e : Option String) with
           | some e3 => Except.error (PyErr.storageError e3)
           | none => Except.ok rows.length)) = Except.error (.storageError e)
      cases hv1 : validate_doc norm with
      | error e2 =>
        rw [hv1] at h3
        have h4 : (Except.error e2 : Except PyErr Nat) = Except.ok n := h3
        simp at h4
      | ok u =>
        rw [hv1] at h3
        have h4 : (do
            let rows ← doc_to_rows norm
            (match (none : Option String) with
             | some e3 => Except.error (PyErr.storageError e3)
             | none => Except.ok rows.length)) = Except.ok n := h3
        show (do
            let rows ← doc_to_rows norm
            (match (some e : Option String) with
             | some e3 => Except.error (PyErr.storageError e3)
             | none => Except.ok rows.length)) = Except.error (.storageError e)
        cases hr1 : doc_to_rows norm with
        | error e2 =>
          rw [hr1] at h4
          have h5 : (Except.error e2 : Except PyErr Nat) = Except.ok n := h4
          simp at h5
        | ok rows => rfl

/-- C2: every per-message error is caught (the handler always returns
normally), and the result is exactly `batchItemFailures` carrying the failed
messages' identifiers in batch order when any message failed, else
`ok/upserted` with the sum of the per-message upserted row counts. -/
theorem claim_C2 (env : ConsumerEnv) (cfg : NormCfg) (now : PyDateTime)
    (oracle : BatchOracle) (recs : List SqsRec) :
    (∃ dlog, lambda_handler_records env cfg now oracle recs
      = .ok (if batchFailures cfg now oracle recs = []
             then .okUpserted (batchTotal cfg now oracle recs)
             else .batchItemFailures (batchFailures cfg now oracle recs),
             dlog))
    ∧ batchFailures cfg now oracle recs
      = (recs.enum.filter (msgFails cfg now oracle)).map (fun ir => ir.2.idOf)
    ∧ batchTotal cfg now oracle recs
      = (recs.enum.map (msgCount cfg now oracle)).sum :=
  ⟨⟨batchDlog env cfg now oracle recs,
    lambda_handler_records_eq env cfg now oracle recs⟩, rfl, rfl⟩

/-- C10: `_send_to_dlq` returns normally in every case — skipping when the
provider is not SQS, dropping when `DLQ_URL` is unset, swallowing a send
error — and neither the queue configuration nor the send outcome changes the
handler's batch result. -/
theorem claim_C10 :
    (∀ (env : ConsumerEnv) (sf : Option String) (b e : String),
      ∃ o, _send_to_dlq env sf b e = Except.ok o)
    ∧ (∀ (env : ConsumerEnv) (sf : Option String) (b e : String),
        QUEUE_PROVIDER env ≠ "sqs" →
        _send_to_dlq env sf b e = .ok .skippedNotSqs)
    ∧ (∀ (env : ConsumerEnv) (sf : Option String) (b e : String),
        QUEUE_PROVIDER env = "sqs" → dlqUnset env = true →
        _send_to_dlq env sf b e = .ok .droppedNoUrl)
    ∧ (∀ (env : ConsumerEnv) (b e es : String),
        QUEUE_PROVIDER env = "sqs" → dlqUnset env = false →
        _send_to_dlq env (some es) b e
          = .ok (.sendFailed (PyErr.storageError es).toMsg))
    ∧ (∀ (env1 env2 : ConsumerEnv) (cfg : NormCfg) (now : PyDateTime)
        (dbF sf1 sf2 : Nat → Option String) (recs : List SqsRec),
        (lambda_handler_records env1 cfg now ⟨dbF, sf1⟩ recs).map Prod.fst
          = (lambda_handler_records env2 cfg now ⟨dbF, sf2⟩ recs).map Prod.fst) := by
  refine ⟨?_, ?_, ?_, ?_, ?_⟩
  · intro env sf b e
    exact ⟨_, send_to_dlq_eq env sf b e⟩
  · intro env sf b e h
    rw [send_to_dlq_eq]
    unfold dlqOutcomeFor
    rw [if_pos h]
  · intro env sf b e h1 h2
    rw [send_to_dlq_eq]
    unfold dlqOutcomeFor
    rw [if_neg (by simp [h1]), if_pos h2]
  · intro env b e es h1 h2
    rw [send_to_dlq_eq]
    unfold dlqOutcomeFor
    rw [if_neg (by simp [h1]), if_neg (by simp [h2])]
  · intro env1 env2 cfg now dbF sf1 sf2 recs
    rw [lambda_handler_records_eq, lambda_handler_records_eq]
    rfl

theorem claim_C10_witness :
    _send_to_dlq { queueProviderEnv := some "kafka", dlqUrl := none }
        none "b" "e" = Except.ok DlqOutcome.skippedNotSqs
    ∧ _send_to_dlq { queueProviderEnv := none, dlqUrl := none } none "b" "e"
        = Except.ok DlqOutcome.droppedNoUrl
    ∧ _send_to_dlq { queueProviderEnv := none, dlqUrl := some "q" }
        (some "boom") "b" "e"
        = Except.ok (DlqOutcome.sendFailed (PyErr.storageError "boom").toMsg) :=
  ⟨claim_C10.2.1 _ none "b" "e" (by decide),
   claim_C10.2.2.1 _ none "b" "e" (by decide) (by decide),
   claim_C10.2.2.2.1 _ "b" "e" "boom" (by decide) (by decide)⟩

/-- C3 (as the code behaves): a message whose decode/normalize/validate
stages succeed but whose upsert fails is reported as failed for redelivery
AND its raw payload is handed to the dead-letter routine — the same routing
as a validation failure; with the SQS provider, a configured `DLQ_URL` and a
successful send, the payload lands on the DLQ wrapped with the storage error
text. -/
theorem claim_C3 (env : ConsumerEnv) (cfg : NormCfg) (now : PyDateTime)
    (oracle : BatchOracle) (recs : List SqsRec) (i : Nat) (rec : SqsRec)
    (n : Nat) (e : String)
    (hmem : (i, rec) ∈ recs.enum)
    (hok : processOneBody cfg now none rec.bodyOf = .ok n)
    (hdb : oracle.dbFail i = some e) :
    rec.idOf ∈ batchFailures cfg now oracle recs
    ∧ lambda_handler_records env cfg now oracle recs
        = .ok (.batchItemFailures (batchFailures cfg now oracle recs),
               batchDlog env cfg now oracle recs)
    ∧ dlqOutcomeFor env (oracle.sqsSendFail i) rec.bodyOf
        (PyErr.storageError e).toMsg ∈ batchDlog env cfg now oracle recs
    ∧ (QUEUE_PROVIDER env = "sqs" → dlqUnset env = false →
        oracle.sqsSendFail i = none →
        DlqOutcome.sent (json_dumps (.jobj
          [("error", .jstr (PyErr.storageError e).toMsg),
           ("original", .jstr rec.bodyOf)]))
          ∈ batchDlog env cfg now oracle recs) := by
  have herr : msgRes cfg now oracle (i, rec) = .error (.storageError e) := by
    show processOneBody cfg now (oracle.dbFail i) rec.bodyOf = _
    rw [hdb]
    exact processOneBody_db_err cfg now _ n e hok
  have hfail : msgFails cfg now oracle (i, rec) = true := by
    simp [msgFails, herr]
  have hmemf : (i, rec) ∈ recs.enum.filter (msgFails cfg now oracle) :=
    List.mem_filter.2 ⟨hmem, hfail⟩
  have h1 : rec.idOf ∈ batchFailures cfg now oracle recs :=
    List.mem_map_of_mem (fun ir => ir.2.idOf) hmemf
  have hdlqe : msgDlq env cfg now oracle (i, rec)
      = dlqOutcomeFor env (oracle.sqsSendFail i) rec.bodyOf
          (PyErr.storageError e).toMsg := by
    simp [msgDlq, msgErrMsg, herr]
  have h3 : dlqOutcomeFor env (oracle.sqsSendFail i) rec.bodyOf
      (PyErr.storageError e).toMsg ∈ batchDlog env cfg now oracle recs := by
    rw [← hdlqe]
    exact List.mem_map_of_mem (msgDlq env cfg now oracle) hmemf
  refine ⟨h1, ?_, h3, ?_⟩
  · have hne : batchFailures cfg now oracle recs ≠ [] := by
      intro h0
      rw [h0] at h1
      simp at h1
    rw [lambda_handler_records_eq, if_neg hne]
  · intro hq hd hs
    have : dlqOutcomeFor env (oracle.sqsSendFail i) rec.bodyOf
        (PyErr.storageError e).toMsg
        = DlqOutcome.sent (json_dumps (.jobj
            [("error", .jstr (PyErr.storageError e).toMsg),
             ("original", .jstr rec.bodyOf)])) := by
      unfold dlqOutcomeFor
      rw [hs, if_neg (by simp [hq]), if_neg (by simp [hd])]
    rw [← this]
    exact h3

/-- A valid price document, as the consumer would receive it. -/
def bodyC3 : String := json_dumps (.jobj
  [("provider", .jstr "prov1"), ("branch", .jstr "b1"),
   ("type", .jstr "prices"), ("timestamp", .jstr "2024-01-05T10:00:00Z"),
   ("items", .jarr [.jobj [("product", .jstr "p1"), ("unit", .jstr "u1"),
                           ("price", .jnum (.finite 15 1))]]),
   ("src_key", .jstr "k1"), ("etag", .jstr "e1")])

def nowC3 : PyDateTime :=
  { year := 2025, month := 6, day := 1, hour := 12, minute := 0, second := 0,
    micro := 0, tzOffsetMin := some 0 }

def envC3 : ConsumerEnv := { queueProviderEnv := none, dlqUrl := some "https://sqs/q" }

def oracleC3 : BatchOracle :=
  { dbFail := fun _ => some "db down", sqsSendFail := fun _ => none }

def recC3 : SqsRec := { body := some bodyC3, messageId := some "m1" }

set_option maxRecDepth 10000 in
theorem claim_C3_witness :
    recC3.idOf ∈ batchFailures {} nowC3 oracleC3 [recC3]
    ∧ lambda_handler_records envC3 {} nowC3 oracleC3 [recC3]
        = .ok (.batchItemFailures (batchFailures {} nowC3 oracleC3 [recC3]),
               batchDlog envC3 {} nowC3 oracleC3 [recC3])
    ∧ dlqOutcomeFor envC3 (oracleC3.sqsSendFail 0) recC3.bodyOf
        (PyErr.storageError "db down").toMsg
        ∈ batchDlog envC3 {} nowC3 oracleC3 [recC3]
    ∧ (QUEUE_PROVIDER envC3 = "sqs" → dlqUnset envC3 = false →
        oracleC3.sqsSendFail 0 = none →
        DlqOutcome.sent (json_dumps (.jobj
          [("error", .jstr (PyErr.storageError "db down").toMsg),
           ("original", .jstr recC3.bodyOf)]))
          ∈ batchDlog envC3 {} nowC3 oracleC3 [recC3]) :=
  claim_C3 envC3 {} nowC3 oracleC3 [recC3] 0 recC3 1 "db down"
    (by simp) (by rfl) rfl

set_option maxRecDepth 10000 in
/-- The message decodes, normalizes and validates — only the store fails —
yet the batch dead-letters the raw payload all the same. -/
theorem claim_C3_counterexample :
    processOneBody {} nowC3 none bodyC3 = .ok 1
    ∧ lambda_handler_records envC3 {} nowC3 oracleC3 [recC3]
        = .ok (.batchItemFailures ["m1"],
               [.sent (json_dumps (.jobj
                 [("error", .jstr "db down"),
                  ("original", .jstr bodyC3)]))]) :=
  ⟨rfl, rfl⟩
